import Mathlib

/-!
# Staged-file set and KeySet synchronisation of `ait`

A shallow embedding of `cli/remove.go` (`RemoveRun`) and `keysets/generate.go`
(`createNew`, `amendExisting`, `fillMapWithCID`, `getKeySetLine`), together with
the Go standard-library primitives these functions call.

Conventions of the embedding.

* `RemoveRun` works on bytes (`Bytes`, a list of byte values): the store, the
  temporary file, the patterns and the scanned lines. `path.Match` and the write
  offsets of Go count bytes, and `utf8` gives the bytes of a text.
* The KeySet functions read text: a KeySet file, the staged-file store and the
  paths are Lean `String`s, that is valid UTF-8, on which the functions of
  `strings` and `path/filepath` act character by character as Go does rune by
  rune. What `amendExisting` leaves in the KeySet file is given in bytes.
* An absent file is `none`.
* `log.Fatal` and the `utils.Fatal...` helpers end the operation: the model
  returns the error together with the file state reached at that point.
* A Go `map[string]string` is an association list with distinct keys; the order
  in which `range` visits a map is supplied by an explicit ordering function.
-/

namespace Ait

/-! ## Bytes and UTF-8 -/

/-- The content of a file or a Go string as its bytes. -/
abbrev Bytes := List Nat

/-- The UTF-8 encoding of one character. -/
def utf8Char (c : Char) : Bytes :=
  let n := c.toNat
  if n < 0x80 then [n]
  else if n < 0x800 then [0xC0 + n / 64, 0x80 + n % 64]
  else if n < 0x10000 then [0xE0 + n / 4096, 0x80 + n / 64 % 64, 0x80 + n % 64]
  else [0xF0 + n / 262144, 0x80 + n / 4096 % 64, 0x80 + n / 64 % 64, 0x80 + n % 64]

/-- The bytes of a list of characters. -/
def utf8Chars : List Char → Bytes
  | [] => []
  | c :: cs => utf8Char c ++ utf8Chars cs

/-- The bytes of a text. -/
def utf8 (s : String) : Bytes := utf8Chars s.data

/-- The function `utf8.DecodeRuneInString`: the first rune of `s` and its width in
bytes; an invalid or short encoding gives `RuneError` (U+FFFD) and width 1, the
empty string `RuneError` and width 0. -/
def decodeRune (s : Bytes) : Nat × Nat :=
  match s with
  | [] => (0xFFFD, 0)
  | s0 :: t =>
    if s0 < 0x80 then (s0, 1)
    else if s0 < 0xC2 ∨ 0xF4 < s0 then (0xFFFD, 1)
    else
      let sz := if s0 < 0xE0 then 2 else if s0 < 0xF0 then 3 else 4
      let lo := if s0 = 0xE0 then 0xA0 else if s0 = 0xF0 then 0x90 else 0x80
      let hi := if s0 = 0xED then 0x9F else if s0 = 0xF4 then 0x8F else 0xBF
      if t.length + 1 < sz then (0xFFFD, 1)
      else
        match t with
        | [] => (0xFFFD, 1)
        | s1 :: t1 =>
          if s1 < lo ∨ hi < s1 then (0xFFFD, 1)
          else if sz = 2 then (s0 % 32 * 64 + s1 % 64, 2)
          else
            match t1 with
            | [] => (0xFFFD, 1)
            | s2 :: t2 =>
              if s2 < 0x80 ∨ 0xBF < s2 then (0xFFFD, 1)
              else if sz = 3 then (s0 % 16 * 4096 + s1 % 64 * 64 + s2 % 64, 3)
              else
                match t2 with
                | [] => (0xFFFD, 1)
                | s3 :: _ =>
                  if s3 < 0x80 ∨ 0xBF < s3 then (0xFFFD, 1)
                  else (s0 % 8 * 262144 + s1 % 64 * 4096 + s2 % 64 * 64 + s3 % 64, 4)

/-! ## Go standard library: `unicode`, `strings` -/

/-- The predicate `unicode.IsSpace`: the Latin-1 spaces and the code points of the
`White_Space` property. -/
def isSpace (c : Char) : Bool :=
  let n := c.toNat
  (9 ≤ n && n ≤ 13) || n == 0x20 || n == 0x85 || n == 0xA0 || n == 0x1680 ||
  (0x2000 ≤ n && n ≤ 0x200A) || n == 0x2028 || n == 0x2029 || n == 0x202F ||
  n == 0x205F || n == 0x3000

/-- Loop of `strings.Fields`: `cur` holds, reversed, the characters of the field
being read. -/
def fieldsAux : List Char → List Char → List String
  | [], cur => if cur = [] then [] else [String.mk cur.reverse]
  | c :: cs, cur =>
    if isSpace c then
      if cur = [] then fieldsAux cs [] else String.mk cur.reverse :: fieldsAux cs []
    else fieldsAux cs (c :: cur)

/-- The function `strings.Fields`: the maximal runs of non-space characters. -/
def Fields (s : String) : List String := fieldsAux s.data []

/-- The function `strings.TrimSpace`: leading and trailing white space removed. -/
def TrimSpace (s : String) : String :=
  String.mk ((s.data.dropWhile isSpace).reverse.dropWhile isSpace).reverse

/-- The function `strings.Join`. -/
def Join : List String → String → String
  | [], _ => ""
  | [a], _ => a
  | a :: b :: rest, sep => a ++ sep ++ Join (b :: rest) sep

/-! ## Go standard library: `bufio.Scanner` with `ScanLines` -/

/-- The constant `bufio.MaxScanTokenSize`: the size of the scanner's buffer. -/
def MaxScanTokenSize : Nat := 65536

/-- The helper `dropCR` of `bufio`: one trailing carriage return is dropped. The
argument is the line reversed. -/
def dropCR {α : Type} [DecidableEq α] (cr : α) : List α → List α
  | c :: cs => if c = cr then cs else c :: cs
  | [] => []

/-- Loop of a `bufio.Scanner` with the `ScanLines` split function over the symbols
of a file, `size` giving the bytes of a symbol: `cur` holds, reversed, the symbols
of the line being read, `n` their bytes, `start` the offset of the line in the
file. When the buffer is full (`MaxScanTokenSize` bytes of a line and no newline
among them) the scanner stops with `ErrTooLong`, which no caller in this repository
reads; the file has then been read up to the end of the buffer. The result is the
tokens and, if the scanner stopped so, the offset reached in the file. -/
def scanAux {α : Type} [DecidableEq α] (nl cr : α) (size : α → Nat) :
    List α → List α → Nat → Nat → List (List α) × Option Nat
  | [], cur, n, start =>
    if MaxScanTokenSize ≤ n then ([], some (start + MaxScanTokenSize))
    else (if cur = [] then [] else [(dropCR cr cur).reverse], none)
  | c :: cs, cur, n, start =>
    if MaxScanTokenSize ≤ n then ([], some (start + MaxScanTokenSize))
    else if c = nl then
      ((dropCR cr cur).reverse :: (scanAux nl cr size cs [] 0 (start + n + size c)).1,
        (scanAux nl cr size cs [] 0 (start + n + size c)).2)
    else scanAux nl cr size cs (c :: cur) (n + size c) start

/-- The tokens a `bufio.Scanner` with `ScanLines` yields on a text: every
newline-terminated line, then a final non-empty unterminated line if there is one,
up to the first line of `MaxScanTokenSize` bytes or more. -/
def ScanLines (content : String) : List String :=
  (scanAux '\n' '\r' (fun c => (utf8Char c).length) content.data [] 0 0).1.map String.mk

/-- The offset in a text file at which a `bufio.Scanner` with `ScanLines` leaves
the file when its loop ends: the end of the file, or the end of the buffer if the
scanner stopped at a long line. -/
def scanEnd (content : String) : Nat :=
  ((scanAux '\n' '\r' (fun c => (utf8Char c).length) content.data [] 0 0).2).getD
    (utf8 content).length

/-- The tokens a `bufio.Scanner` with `ScanLines` yields on the bytes of a file. -/
def ScanLinesBytes (content : Bytes) : List Bytes :=
  (scanAux 10 13 (fun _ => 1) content [] 0 0).1

/-- The lines of a file whatever their length: every newline-terminated line, then
a final non-empty unterminated line if there is one, a trailing carriage return
dropped. -/
def linesAux {α : Type} [DecidableEq α] (nl cr : α) : List α → List α → List (List α)
  | [], cur => if cur = [] then [] else [(dropCR cr cur).reverse]
  | c :: cs, cur =>
    if c = nl then (dropCR cr cur).reverse :: linesAux nl cr cs []
    else linesAux nl cr cs (c :: cur)

/-- The lines of a text. -/
def fileLines (content : String) : List String :=
  (linesAux '\n' '\r' content.data []).map String.mk

/-- The lines of the bytes of a file. -/
def fileLinesBytes (content : Bytes) : List Bytes := linesAux 10 13 content []

/-- Whether every line of a file, its newline left out, has fewer bytes than the
buffer of the scanner; `n` is the bytes of the line being read. -/
def shortAux {α : Type} [DecidableEq α] (nl : α) (size : α → Nat) : List α → Nat → Bool
  | [], n => decide (n < MaxScanTokenSize)
  | c :: cs, n =>
    decide (n < MaxScanTokenSize) &&
      (if c = nl then shortAux nl size cs 0 else shortAux nl size cs (n + size c))

/-- Every line of a text has fewer than `MaxScanTokenSize` bytes. -/
def ShortLines (content : String) : Bool :=
  shortAux '\n' (fun c => (utf8Char c).length) content.data 0

/-- The text of a sequence of lines, each written as `line + "\n"`. -/
def linesText : List String → String
  | [] => ""
  | l :: ls => l ++ "\n" ++ linesText ls

/-- The bytes of a sequence of lines, each written as `line + "\n"`. -/
def linesBytes : List Bytes → Bytes
  | [] => []
  | l :: ls => l ++ [10] ++ linesBytes ls

/-! ## Go standard library: `path/filepath` (Unix) -/

/-- The function `filepath.Base`: the last element of a path, trailing slashes
removed; `"."` for the empty path and `"/"` for a path of slashes only. -/
def Base (path : String) : String :=
  if path.data = [] then "."
  else
    let stripped := path.data.reverse.dropWhile (fun c => c == '/')
    let last := (stripped.takeWhile (fun c => !(c == '/'))).reverse
    if last = [] then "/" else String.mk last

/-- Loop of `filepath.Ext` over the path read from its end: `acc` is the suffix
already passed. -/
def extAux : List Char → List Char → List Char
  | [], _ => []
  | c :: cs, acc =>
    if c = '/' then [] else if c = '.' then c :: acc else extAux cs (c :: acc)

/-- The function `filepath.Ext`: the suffix beginning at the final dot of the last
element of the path, empty if there is no dot. -/
def Ext (path : String) : String := String.mk (extAux path.data.reverse [])

/-- The backtracking of `filepath.Clean` on a `..` element: from write index `w`
step back while above `dotdot` and not on a separator. -/
def cleanBack {α : Type} [DecidableEq α] (sep : α) (out : List α) (dotdot : Nat) : Nat → Nat
  | 0 => 0
  | w + 1 =>
    if dotdot < w + 1 ∧ out.get? (w + 1) ≠ some sep then cleanBack sep out dotdot w else w + 1

/-- Main loop of `filepath.Clean` over the symbols of a path, `sep` the slash and
`dot` the dot: `rest` is the unread part of the path, `out` the buffer written so
far, `dotdot` the index below which `..` may not backtrack. Every round consumes
at least one symbol of `rest`. -/
def cleanLoop {α : Type} [DecidableEq α] (sep dot : α) (rooted : Bool) :
    Nat → List α → List α → Nat → List α
  | 0, _, out, _ => out
  | fuel + 1, rest, out, dotdot =>
    match rest with
    | [] => out
    | c :: t =>
      if c = sep then cleanLoop sep dot rooted fuel t out dotdot
      else if c = dot ∧ (t = [] ∨ t.head? = some sep) then
        cleanLoop sep dot rooted fuel t out dotdot
      else if c = dot ∧ t.head? = some dot ∧ (t.tail = [] ∨ t.tail.head? = some sep) then
        if dotdot < out.length then
          cleanLoop sep dot rooted fuel t.tail
            (out.take (cleanBack sep out dotdot (out.length - 1))) dotdot
        else if !rooted then
          let out1 := (if 0 < out.length then out ++ [sep] else out) ++ [dot, dot]
          cleanLoop sep dot rooted fuel t.tail out1 out1.length
        else cleanLoop sep dot rooted fuel t.tail out dotdot
      else
        let out1 :=
          if (rooted && out.length != 1) || (!rooted && out.length != 0) then out ++ [sep]
          else out
        let elem := rest.takeWhile (fun x => !(x == sep))
        cleanLoop sep dot rooted fuel (rest.dropWhile (fun x => !(x == sep))) (out1 ++ elem)
          dotdot

/-- The function `filepath.Clean` over the symbols of a path: the shortest path
name lexically equivalent to `path`. -/
def cleanPath {α : Type} [DecidableEq α] (sep dot : α) (path : List α) : List α :=
  match path with
  | [] => [dot]
  | c :: t =>
    let out :=
      if c = sep then cleanLoop sep dot true (t.length + 1) t [sep] 1
      else cleanLoop sep dot false (t.length + 2) (c :: t) [] 0
    if out = [] then [dot] else out

/-- The function `filepath.Clean` on a text. -/
def Clean (path : String) : String := String.mk (cleanPath '/' '.' path.data)

/-- The function `filepath.Clean` on bytes. -/
def CleanBytes (path : Bytes) : Bytes := cleanPath 47 46 path

/-- The function `filepath.Join` for two elements: the elements from the first
non-empty one on joined by a slash and cleaned; the empty string if both are
empty. -/
def filepathJoin (a b : String) : String :=
  if a.data ≠ [] then Clean (a ++ "/" ++ b)
  else if b.data ≠ [] then Clean b
  else ""

/-! ## Go standard library: `path.Match` -/

/-- The helper `getEsc` of `path.Match`: a possibly escaped rune of a character
class and the chunk after it; `none` is `ErrBadPattern`. -/
def getEsc (chunk : Bytes) : Option (Nat × Bytes) :=
  match chunk with
  | [] => none
  | c :: t =>
    if c = '-'.toNat ∨ c = ']'.toNat then none
    else
      let chunk1 := if c = '\\'.toNat then t else chunk
      if chunk1 = [] then none
      else if (decodeRune chunk1).1 = 0xFFFD ∧ (decodeRune chunk1).2 = 1 then none
      else if chunk1.drop (decodeRune chunk1).2 = [] then none
      else some ((decodeRune chunk1).1, chunk1.drop (decodeRune chunk1).2)

/-- The range loop of a character class in `matchChunk`: reads ranges up to the
closing bracket and reports whether the rune `r` lies in one of them, with the
chunk after the bracket; `none` is `ErrBadPattern`. Every round consumes a byte. -/
def classLoop (r : Nat) : Nat → Bytes → Bool → Nat → Option (Bool × Bytes)
  | 0, _, _, _ => none
  | fuel + 1, chunk, mtch, nrange =>
    if chunk.head? = some ']'.toNat ∧ 0 < nrange then some (mtch, chunk.tail)
    else
      match getEsc chunk with
      | none => none
      | some (lo, chunk1) =>
        if chunk1.head? = some '-'.toNat then
          match getEsc chunk1.tail with
          | none => none
          | some (hi, chunk2) =>
            classLoop r fuel chunk2 (mtch || (decide (lo ≤ r) && decide (r ≤ hi))) (nrange + 1)
        else
          classLoop r fuel chunk1 (mtch || (decide (lo ≤ r) && decide (r ≤ lo))) (nrange + 1)

/-- Loop of `matchChunk`: `chunk` is matched at the beginning of `s`; once
`failed` is set the chunk is only checked for well-formedness. The result is the
rest of `s` and whether the chunk matched; `none` is `ErrBadPattern`. Every round
consumes a byte of `chunk`. -/
def matchChunkLoop : Nat → Bytes → Bytes → Bool → Option (Bytes × Bool)
  | 0, chunk, s, failed =>
    if chunk = [] then (if failed then some ([], false) else some (s, true)) else none
  | fuel + 1, chunk, s, failed =>
    match chunk with
    | [] => if failed then some ([], false) else some (s, true)
    | c :: ct =>
      let failed := failed || s.isEmpty
      if c = '['.toNat then
        let r := if failed then 0 else (decodeRune s).1
        let s1 := if failed then s else s.drop (decodeRune s).2
        let negated := decide (ct.head? = some '^'.toNat)
        let ct1 := if negated then ct.tail else ct
        match classLoop r (ct1.length + 1) ct1 false 0 with
        | none => none
        | some (mtch, ct2) => matchChunkLoop fuel ct2 s1 (failed || (mtch == negated))
      else if c = '?'.toNat then
        if failed then matchChunkLoop fuel ct s true
        else matchChunkLoop fuel ct (s.drop (decodeRune s).2) (decide (s.head? = some '/'.toNat))
      else if c = '\\'.toNat then
        match ct with
        | [] => none
        | c2 :: ct2 =>
          if failed then matchChunkLoop fuel ct2 s true
          else matchChunkLoop fuel ct2 s.tail (decide (s.head? ≠ some c2))
      else
        if failed then matchChunkLoop fuel ct s true
        else matchChunkLoop fuel ct s.tail (decide (s.head? ≠ some c))

/-- The helper `matchChunk` of `path.Match`. -/
def matchChunk (chunk s : Bytes) : Option (Bytes × Bool) :=
  matchChunkLoop chunk.length chunk s false

/-- The scanning loop of `scanChunk` after the leading stars: the chunk up to the
next star outside a character class, and the rest of the pattern. -/
def scanChunkAux : Bytes → Bool → Bytes × Bytes
  | [], _ => ([], [])
  | c :: t, inrange =>
    if c = '\\'.toNat then
      match t with
      | [] => ([c], [])
      | d :: t2 => (c :: d :: (scanChunkAux t2 inrange).1, (scanChunkAux t2 inrange).2)
    else if c = '['.toNat then (c :: (scanChunkAux t true).1, (scanChunkAux t true).2)
    else if c = ']'.toNat then (c :: (scanChunkAux t false).1, (scanChunkAux t false).2)
    else if c = '*'.toNat ∧ inrange = false then ([], c :: t)
    else (c :: (scanChunkAux t inrange).1, (scanChunkAux t inrange).2)

/-- The helper `scanChunk` of `path.Match`: whether the segment starts with a
star, its star-free chunk, and the rest of the pattern. -/
def scanChunk (pattern : Bytes) : Bool × Bytes × Bytes :=
  let p := pattern.dropWhile (fun c => c == '*'.toNat)
  (decide (pattern.head? = some '*'.toNat), (scanChunkAux p false).1, (scanChunkAux p false).2)

/-- The star loop of `path.Match`: after skipping `i + 1` bytes of `name`, none of
them a slash, look for a match of `chunk`. `none` is `ErrBadPattern`, `some none`
no match, `some (some t)` a match leaving `t`. -/
def starLoop (chunk : Bytes) (lastChunk : Bool) : Bytes → Option (Option Bytes)
  | [] => some none
  | c :: tl =>
    if c = '/'.toNat then some none
    else
      match matchChunk chunk tl with
      | none => none
      | some (t, ok) =>
        if ok then
          if lastChunk ∧ t ≠ [] then starLoop chunk lastChunk tl else some (some t)
        else starLoop chunk lastChunk tl

/-- The final loop of `path.Match`: the rest of the pattern is checked for
well-formedness; `false` is `ErrBadPattern`. -/
def restValid : Nat → Bytes → Bool
  | 0, _ => true
  | fuel + 1, pattern =>
    if pattern = [] then true
    else
      match matchChunk (scanChunk pattern).2.1 [] with
      | none => false
      | some _ => restValid fuel (scanChunk pattern).2.2

/-- Main loop of `path.Match`; `none` is `ErrBadPattern`. Every round consumes a
byte of `pattern`. -/
def matchLoop : Nat → Bytes → Bytes → Option Bool
  | 0, pattern, name => if pattern = [] then some (decide (name = [])) else none
  | fuel + 1, pattern, name =>
    if pattern = [] then some (decide (name = []))
    else
      let star := (scanChunk pattern).1
      let chunk := (scanChunk pattern).2.1
      let rest := (scanChunk pattern).2.2
      if star ∧ chunk = [] then some (!(name.contains '/'.toNat))
      else
        match matchChunk chunk name with
        | some (t, true) =>
          if t = [] ∨ rest ≠ [] then matchLoop fuel rest t
          else if star then
            match starLoop chunk (decide (rest = [])) name with
            | none => none
            | some (some t1) => matchLoop fuel rest t1
            | some none => if restValid rest.length rest then some false else none
          else if restValid rest.length rest then some false else none
        | some (_, false) =>
          if star then
            match starLoop chunk (decide (rest = [])) name with
            | none => none
            | some (some t1) => matchLoop fuel rest t1
            | some none => if restValid rest.length rest then some false else none
          else if restValid rest.length rest then some false else none
        | none => none

/-- The function `path.Match` on the bytes of a pattern and of a name: whether the
name matches the shell pattern; `none` is `ErrBadPattern`. -/
def Match (pattern name : Bytes) : Option Bool :=
  matchLoop pattern.length pattern name

/-! ## `cli/remove.go` -/

/-- The two files `RemoveRun` works on: the staged-file store at `addedFilesPath`
and the temporary file `.ait/temp`. -/
structure FS where
  addedFiles : Option Bytes
  temp : Option Bytes
deriving DecidableEq, Repr

/-- Which of the input/output steps of `RemoveRun` fail in a run: the truncating
open of the clear-all path, the two opens of the rewrite, the `k`-th
`WriteString` on the temporary file, `os.Remove` and `os.Rename`. -/
structure Faults where
  truncate : Bool
  openStore : Bool
  openTemp : Bool
  write : Nat → Bool
  remove : Bool
  rename : Bool

/-- A run in which every input/output step succeeds. -/
def noFaults : Faults := ⟨false, false, false, fun _ => false, false, false⟩

/-- The statement of `RemoveRun` whose `log.Fatal` ended the run. -/
inductive Step where
  | nothingStaged
  | truncate
  | openStore
  | openTemp
  | write
  | remove
  | rename
deriving DecidableEq, Repr

/-- How a run of `RemoveRun` ends: it returns, it exits in `log.Fatal`, or the
index expression `args.Patterns[0]` is out of range. -/
inductive Outcome where
  | returned
  | fatal (step : Step)
  | indexOutOfRange
deriving DecidableEq, Repr

/-- Modelled from the spec: the helper `FileExists` of package `cli` is not among
the sources; the store "must exist". -/
def FileExists (file : Option Bytes) : Bool := file.isSome

/-- Modelled from the spec: the helper `GetFileSize` of package `cli` is not among
the sources; the store must be "non-empty". -/
def GetFileSize (file : Option Bytes) : Nat := (file.getD []).length

/-- The test of one line against one pattern in `RemoveRun`:
`m, _ := path.Match(filepath.Clean(pattern), line)`, the error dropped. -/
def matchLine (pattern line : Bytes) : Bool := (Match (CleanBytes pattern) line).getD false

/-- State of the rewrite loop: the keys of the map `contents`, the bytes written to
the temporary file, and the number of `WriteString` calls made. -/
structure Rewrite where
  contents : List Bytes
  written : Bytes
  writes : Nat
deriving DecidableEq, Repr

/-- Inner loop of `RemoveRun` (lines 69 to 80) for one scanned line. The flag
reports that a `WriteString` failed. -/
def patternLoop (io : Faults) (line : Bytes) : List Bytes → Rewrite → Rewrite × Bool
  | [], st => (st, false)
  | pattern :: rest, st =>
    let m := matchLine pattern line
    let contains := decide (line ∈ st.contents)
    if !(m || contains) then
      if io.write st.writes then (⟨line :: st.contents, st.written, st.writes + 1⟩, true)
      else
        patternLoop io line rest
          ⟨line :: st.contents, st.written ++ (line ++ [10]), st.writes + 1⟩
    else patternLoop io line rest st

/-- Outer loop of `RemoveRun` (lines 68 to 81) over the scanned lines. -/
def scanLoop (io : Faults) (patterns : List Bytes) : List Bytes → Rewrite → Rewrite × Bool
  | [], st => (st, false)
  | line :: lines, st =>
    if (patternLoop io line patterns st).2 then (patternLoop io line patterns st)
    else scanLoop io patterns lines (patternLoop io line patterns st).1

/-- Content of a file opened with `O_WRONLY|O_CREATE` and no `O_TRUNC` after
`written` has been written from offset zero over the content `old`. -/
def overwrite (old written : Bytes) : Bytes :=
  written ++ old.drop written.length

/-- The rewrite of `RemoveRun` (lines 57 to 91): the lines that stay are written
to the temporary file, the original is removed, and the temporary file is renamed
to the store. -/
def rewriteStore (io : Faults) (fs : FS) (patterns : List Bytes) : Outcome × FS :=
  if io.openStore then (.fatal .openStore, fs)
  else if io.openTemp then (.fatal .openTemp, fs)
  else
    let run := scanLoop io patterns (ScanLinesBytes (fs.addedFiles.getD [])) ⟨[], [], 0⟩
    let tempNow := overwrite (fs.temp.getD []) run.1.written
    if run.2 then (.fatal .write, { fs with temp := some tempNow })
    else if io.remove then (.fatal .remove, { fs with temp := some tempNow })
    else if io.rename then (.fatal .rename, { addedFiles := none, temp := some tempNow })
    else (.returned, { addedFiles := some tempNow, temp := none })

/-- The function `RemoveRun` of `cli/remove.go`, with `flags.All` and
`args.Patterns` as arguments. The result is how the run ends and the files it
leaves. The condition `flags.All || args.Patterns[0] == "."` reads the first
pattern only when the flag is off. -/
def RemoveRun (io : Faults) (fs : FS) (all : Bool) (patterns : List Bytes) : Outcome × FS :=
  if !FileExists fs.addedFiles || GetFileSize fs.addedFiles == 0 then
    (.fatal .nothingStaged, fs)
  else
    match (if all then some true else patterns.head?.map (fun p => p == utf8 ".")) with
    | none => (.indexOutOfRange, fs)
    | some true =>
      if io.truncate then (.fatal .truncate, fs)
      else (.returned, { fs with addedFiles := some [] })
    | some false => rewriteStore io fs patterns

/-- The constant `delimiter`: two spaces. -/
def delimiter : String := "  "

/-- The fatal errors of the KeySet functions: a malformed KeySet file, and an
error of `ipfs.Add`. -/
inductive KsError where
  | malformedKeySet (file : String)
  | addressing (msg : String)
deriving DecidableEq, Repr

/-- Modelled from the spec: the helpers `utils.FatalWithCleanup` and
`utils.CheckErrorWithCleanup` are not among the sources; their errors are "fatal
to the current operation", which ends there with the error. -/
def FatalWithCleanup {α : Type} (e : KsError) : Except KsError α := .error e

/-- Modelled from the spec: the constant `utils.AddedFilesPath` is not among the
sources; the store is "located at a fixed relative path inside a control
directory", the directory `.ait` of `.ait/temp`. -/
def AddedFilesPath : String := ".ait/added_files"

/-- A Go `map[string]string`: an association list in which a key occurs once. -/
abbrev GoMap := List (String × String)

/-- The lookup `_, contains := m[k]`. -/
def mapContains (m : GoMap) (k : String) : Bool := m.any (fun e => e.1 == k)

/-- The lookup `m[k]` of a present key. -/
def mapGet (m : GoMap) (k : String) : Option String := (m.find? (fun e => e.1 == k)).map Prod.snd

/-- The assignment `m[k] = v`. -/
def mapSet : GoMap → String → String → GoMap
  | [], k, v => [(k, v)]
  | e :: m, k, v => if e.1 = k then (k, v) :: m else e :: mapSet m k v

/-- The statement `delete(m, k)`. -/
def mapDelete (m : GoMap) (k : String) : GoMap := m.filter (fun e => !(e.1 == k))

/-- The function `getKeySetLine`: white space in the file name is replaced by
dashes, and the line is the cid, the delimiter and the name. -/
def getKeySetLine (filename cid : String) : String :=
  cid ++ delimiter ++ Join (Fields filename) "-"

/-- The function `getKeySetLineFromPath`, with `ipfs.Add` as a parameter; an error
of `ipfs.Add` is fatal. -/
def getKeySetLineFromPath (ipfsAdd : String → Except String String) (filePath : String) :
    Except KsError String :=
  match ipfsAdd filePath with
  | .error e => FatalWithCleanup (.addressing e)
  | .ok cid => .ok (getKeySetLine (Join (Fields (Base filePath)) "-") cid)

/-- The loop of `fillMapWithCID` for a file with the extension `.ks` (lines 241 to
251): a non-blank line must split into two fields. -/
def keySetLoop (fileName : String) : List String → GoMap → Except KsError GoMap
  | [], contents => .ok contents
  | text :: rest, contents =>
    let line := TrimSpace text
    if line.length > 0 then
      match Fields line with
      | [k, v] => keySetLoop fileName rest (mapSet contents k v)
      | _ => FatalWithCleanup (.malformedKeySet fileName)
    else keySetLoop fileName rest contents

/-- The loop of `fillMapWithCID` for any other file (lines 253 to 261): every
non-blank line is a path, added under the link and stored under its cid. -/
def pathListLoop (ipfsAdd : String → Except String String) (link : String) :
    List String → GoMap → Except KsError GoMap
  | [], contents => .ok contents
  | text :: rest, contents =>
    let line := TrimSpace text
    if line.length > 0 then
      match ipfsAdd (filepathJoin link line) with
      | .error e => FatalWithCleanup (.addressing e)
      | .ok cid => pathListLoop ipfsAdd link rest (mapSet contents cid (Base line))
    else pathListLoop ipfsAdd link rest contents

/-- The function `fillMapWithCID` on a file given by its name and content. The
symbolic link `link` to the working directory is taken as set up. -/
def fillMapWithCID (ipfsAdd : String → Except String String) (link : String)
    (contents : GoMap) (fileName fileContent : String) : Except KsError GoMap :=
  if Ext fileName = ".ks" then keySetLoop fileName (ScanLines fileContent) contents
  else pathListLoop ipfsAdd link (ScanLines fileContent) contents

/-- The first loop of `amendExisting` (lines 153 to 164) over the staged map in
the order `range` yields it; the result is `ksContents` and `newFiles`. -/
def diffLoop : List (String × String) → GoMap → GoMap → GoMap × GoMap
  | [], ksContents, newFiles => (ksContents, newFiles)
  | (cid, path) :: rest, ksContents, newFiles =>
    if !mapContains ksContents cid then
      diffLoop rest ksContents (mapSet newFiles cid (Join (Fields (Base path)) "-"))
    else diffLoop rest (mapDelete ksContents cid) newFiles

/-- Content of a file after `written` has been written at offset `pos`. -/
def writeAt (file : Bytes) (pos : Nat) (written : Bytes) : Bytes :=
  file.take pos ++ written ++ file.drop (pos + written.length)

/-- The second loop of `amendExisting` (lines 173 to 182): one `WriteString` for
every new entry, at the offset `pos` the file is at. -/
def appendLoop : List (String × String) → Bytes → Nat → Bytes
  | [], file, _ => file
  | (cid, filename) :: rest, file, pos =>
    appendLoop rest (writeAt file pos (utf8 (getKeySetLine filename cid ++ "\n")))
      (pos + (utf8 (getKeySetLine filename cid ++ "\n")).length)

/-- The function `amendExisting` on the content of the KeySet file at `ksPath` and
of the staged-file store. `range` gives the order in which a `range` loop visits
a map. The KeySet file is opened without `O_APPEND`, so the lines are written
where the scanner of `fillMapWithCID` left the file. The result is the fatal
error, if any, and the bytes of the KeySet file left; the files are taken to open
and the writes to succeed. -/
def amendExisting (ipfsAdd : String → Except String String) (link : String)
    (range : GoMap → List (String × String)) (ksPath keySetFile addedFiles : String) :
    Option KsError × Bytes :=
  match fillMapWithCID ipfsAdd link [] AddedFilesPath addedFiles with
  | .error e => (some e, utf8 keySetFile)
  | .ok addedFilesContents =>
    match fillMapWithCID ipfsAdd link [] ksPath keySetFile with
    | .error e => (some e, utf8 keySetFile)
    | .ok ksContents =>
      (none, appendLoop (range (diffLoop (range addedFilesContents) ksContents []).2)
        (utf8 keySetFile) (scanEnd keySetFile))

/-- The order of Go strings on their characters, position by position. -/
def strLt : List Char → List Char → Bool
  | _, [] => false
  | [], _ :: _ => true
  | a :: as, b :: bs => decide (a < b) || (a == b && strLt as bs)

/-- Modelled from the spec: the sorted set of `types.NewSortedStringSet` is not
among the sources; its `Add` keeps "sorted, deduplicated strings". -/
def sortedAdd (s : String) : List String → List String
  | [] => [s]
  | a :: l =>
    if s = a then a :: l
    else if strLt s.data a.data then s :: a :: l
    else a :: sortedAdd s l

/-- Modelled from the spec: the helper `utils.FillSet` is not among the sources;
it builds the "lexicographically sorted, deduplicated set of staged paths" from
the lines of the store. -/
def FillSet (contents : List String) (file : String) : List String :=
  (fileLines file).foldl (fun set line => sortedAdd line set) contents

/-- The traversal `contents.ForEach` of `createNew` (lines 85 to 92): one line of
output for every path of the set. -/
def forEachPath (ipfsAdd : String → Except String String) (link : String) :
    List String → String → Except KsError String
  | [], output => .ok output
  | filePath :: rest, output =>
    match getKeySetLineFromPath ipfsAdd (filepathJoin link filePath) with
    | .error e => .error e
    | .ok line => forEachPath ipfsAdd link rest (output ++ (line ++ "\n"))

/-- The function `createNew` on the prior content of the target, if it exists,
and the content of the staged-file store; the result is the content of the target
after the write. The target is opened with `O_TRUNC`, so the prior content is
discarded. The symbolic link is taken as set up and the write to succeed. -/
def createNew (ipfsAdd : String → Except String String) (link : String)
    (prior : Option String) (addedFiles : String) : Except KsError String :=
  let truncated := (prior.map (fun _ => "")).getD ""
  match forEachPath ipfsAdd link (FillSet [] addedFiles) "" with
  | .error e => .error e
  | .ok output => .ok (truncated ++ output)

/-- The staged paths of a store: its trimmed non-blank lines. -/
def stagedPaths (addedFiles : String) : List String :=
  ((fileLines addedFiles).map TrimSpace).filter (fun l => decide (l.length > 0))

/-- The ContentIDs of a KeySet file: the first field of every non-blank line. -/
def keySetKeys (keySetFile : String) : List String :=
  (((fileLines keySetFile).map TrimSpace).filter (fun l => decide (l.length > 0))).map
    (fun l => (Fields l).headD "")

/-- The DisplayName of a path: its base name with the white space runs between
its fields replaced by single hyphens. -/
def DisplayName (path : String) : String := Join (Fields (Base path)) "-"

/-- The last path of a list with the given ContentID under `cidOf`. -/
def lastStaged (cidOf : String → String) (paths : List String) (cid : String) : String :=
  (paths.reverse.find? (fun p => cidOf p == cid)).getD ""

/-- A string without white space. -/
def NoSpace (l : List Char) : Prop := ∀ c ∈ l, isSpace c = false

/-- The map `fillMapWithCID` builds from staged paths whose ContentID is given by
`cidOf`. -/
def stagedMap (cidOf : String → String) (paths : List String) (m0 : GoMap) : GoMap :=
  paths.foldl (fun m p => mapSet m (cidOf p) (Base p)) m0

/-- A path that ends in the file name `name`: a non-empty last element without a
slash, other than `.` and `..`, at the start of the path or after a slash. -/
def EndsInName (path : String) (name : List Char) : Prop :=
  ∃ q : List Char, path.data = q ++ name ∧ (q = [] ∨ q.getLast? = some '/') ∧ name ≠ [] ∧
    (∀ c ∈ name, c ≠ '/') ∧ name ≠ ['.'] ∧ name ≠ ['.', '.']

deriving instance DecidableEq for Except

/-- The link to the working directory used in the examples. -/
def demoLink : String := "/home/u/.ait/workdir"

/-- An addressing service used in the examples: three files are known, two of
them with the same content. -/
def demoAdd (path : String) : Except String String :=
  if path = "/home/u/.ait/workdir/fileA.txt" then .ok "CID1"
  else if path = "/home/u/.ait/workdir/fileB.txt" then .ok "CID2"
  else if path = "/home/u/.ait/workdir/copy of A.txt" then .ok "CID1"
  else .error "no such file"

/-- The ContentID of a staged path under `demoAdd`. -/
def demoCid (path : String) : String :=
  if path = "fileA.txt" then "CID1"
  else if path = "fileB.txt" then "CID2"
  else if path = "copy of A.txt" then "CID1"
  else ""

/-- The ContentID `ipfsAdd` gives for a staged path, empty if it fails. -/
def resolved (ipfsAdd : String → Except String String) (link path : String) : String :=
  match ipfsAdd (filepathJoin link path) with
  | .ok cid => cid
  | .error _ => ""


/-- The paths `fillMapWithCID` reads from a store: the trimmed non-blank lines the
scanner yields. -/
def scannedPaths (addedFiles : String) : List String :=
  ((ScanLines addedFiles).map TrimSpace).filter (fun l => decide (l.length > 0))

/-- A token of `MaxScanTokenSize` bytes without white space, which as a line, or
the start of one, cannot be held by the buffer of the scanner. -/
def longLine : String := String.mk (List.replicate MaxScanTokenSize 'a')

/-! # Theorems -/

/-! ## The scanner -/

theorem scanAux_short {α : Type} [DecidableEq α] (nl cr : α) (size : α → Nat)
    (l cur : List α) (n start : Nat) (h : shortAux nl size l n = true) :
    scanAux nl cr size l cur n start = (linesAux nl cr l cur, none) := by
  induction l generalizing cur n start with
  | nil =>
    simp only [shortAux, decide_eq_true_eq] at h
    simp only [scanAux, linesAux, Nat.not_le.2 h, if_false]
  | cons c cs ih =>
    simp only [shortAux, Bool.and_eq_true, decide_eq_true_eq] at h
    by_cases hc : c = nl
    · rw [if_pos hc] at h
      simp only [scanAux, linesAux, Nat.not_le.2 h.1, if_false, hc, if_true, ih _ _ _ h.2]
    · rw [if_neg hc] at h
      simp only [scanAux, linesAux, Nat.not_le.2 h.1, if_false, hc, ih _ _ _ h.2]

theorem scanAux_long {α : Type} [DecidableEq α] (nl cr : α) (size : α → Nat)
    (w rest cur : List α) (n start : Nat) (hw : ∀ c ∈ w, c ≠ nl)
    (hlen : MaxScanTokenSize ≤ n + (w.map size).sum) :
    scanAux nl cr size (w ++ rest) cur n start = ([], some (start + MaxScanTokenSize)) := by
  induction w generalizing cur n with
  | nil =>
    simp only [List.map_nil, List.sum_nil, Nat.add_zero] at hlen
    cases rest <;> simp only [List.nil_append, scanAux, hlen, if_true]
  | cons c w ih =>
    by_cases hn : MaxScanTokenSize ≤ n
    · simp only [List.cons_append, scanAux, hn, if_true]
    · have hc : c ≠ nl := hw c (List.mem_cons_self _ _)
      simp only [List.cons_append, scanAux, hn, if_false, hc]
      apply ih _ _ (fun x hx => hw x (List.mem_cons_of_mem _ hx))
      simp only [List.map_cons, List.sum_cons] at hlen
      omega

theorem linesAux_noNewline {α : Type} [DecidableEq α] (nl cr : α) (w rest cur : List α)
    (hw : ∀ c ∈ w, c ≠ nl) :
    linesAux nl cr (w ++ nl :: rest) cur =
      (dropCR cr (w.reverse ++ cur)).reverse :: linesAux nl cr rest [] := by
  induction w generalizing cur with
  | nil => simp [linesAux]
  | cons c w ih =>
    have hc : c ≠ nl := hw c (List.mem_cons_self _ _)
    rw [List.cons_append, List.reverse_cons, List.append_assoc, List.singleton_append]
    simp only [linesAux, hc, if_false]
    exact ih _ (fun x hx => hw x (List.mem_cons_of_mem _ hx))

theorem linesAux_append {α : Type} [DecidableEq α] (nl cr : α) (a b cur : List α) :
    linesAux nl cr (a ++ nl :: b) cur =
      linesAux nl cr (a ++ [nl]) cur ++ linesAux nl cr b [] := by
  induction a generalizing cur with
  | nil => simp [linesAux]
  | cons c a ih =>
    rw [List.cons_append, List.cons_append]
    by_cases hc : c = nl
    · simp only [linesAux, hc, if_true, List.cons_append]
      rw [ih]
    · simp only [linesAux, hc, if_false]
      exact ih _

theorem dropCR_of_last {α : Type} [DecidableEq α] (cr : α) (l : List α)
    (h : l.getLast? ≠ some cr) : (dropCR cr l.reverse).reverse = l := by
  cases hr : l.reverse with
  | nil =>
    have : l = [] := by simpa using hr
    simp [this, dropCR]
  | cons c t =>
    have hl : l = t.reverse ++ [c] := by
      have := congrArg List.reverse hr
      simpa using this
    have hc : c ≠ cr := by
      intro e
      apply h
      rw [hl, e]
      simp
    simp [dropCR, hc, hl]

theorem ScanLines_eq_fileLines (content : String) (h : ShortLines content = true) :
    ScanLines content = fileLines content := by
  unfold ScanLines fileLines
  rw [scanAux_short _ _ _ _ _ _ _ h]

theorem scanEnd_of_short (content : String) (h : ShortLines content = true) :
    scanEnd content = (utf8 content).length := by
  unfold scanEnd
  rw [scanAux_short _ _ _ _ _ _ _ h]
  rfl

theorem fileLines_append (a b : String) (ha : a = "" ∨ a.data.getLast? = some '\n') :
    fileLines (a ++ b) = fileLines a ++ fileLines b := by
  rcases ha with rfl | ha
  · simp [fileLines, linesAux]
  · obtain ⟨a0, h0⟩ : ∃ a0, a.data = a0 ++ ['\n'] := by
      rcases List.eq_nil_or_concat a.data with h | ⟨l, x, h⟩
      · simp [h] at ha
      · rw [h] at ha
        have hx : x = '\n' := by simpa using ha
        exact ⟨l, by rw [h, hx]; simp⟩
    simp only [fileLines, String.data_append, h0, List.append_assoc, List.singleton_append,
      ← List.map_append]
    rw [linesAux_append]

theorem fileLines_linesText (ls : List String)
    (hclean : ∀ l ∈ ls, (∀ c ∈ l.data, c ≠ '\n') ∧ l.data.getLast? ≠ some '\r') :
    fileLines (linesText ls) = ls := by
  induction ls with
  | nil => decide
  | cons l ls ih =>
    have h1 := hclean l (List.mem_cons_self _ _)
    have e : (linesText (l :: ls)).data = l.data ++ '\n' :: (linesText ls).data := by
      simp [linesText]
    unfold fileLines at ih ⊢
    rw [e, linesAux_noNewline _ _ _ _ _ h1.1, List.map_cons,
      ih (fun x hx => hclean x (List.mem_cons_of_mem _ hx))]
    simp [dropCR_of_last _ _ h1.2]

theorem utf8Chars_append (a b : List Char) : utf8Chars (a ++ b) = utf8Chars a ++ utf8Chars b := by
  induction a with
  | nil => rfl
  | cons c a ih => simp [utf8Chars, ih]

theorem utf8_append (a b : String) : utf8 (a ++ b) = utf8 a ++ utf8 b := by
  simp [utf8, utf8Chars_append]

theorem utf8Chars_replicate_a (n : Nat) : utf8Chars (List.replicate n 'a') = List.replicate n 97 := by
  induction n with
  | zero => rfl
  | succ n ih =>
    rw [List.replicate_succ, List.replicate_succ, utf8Chars, ih]
    rfl

theorem sum_size_replicate_a (n : Nat) :
    ((List.replicate n 'a').map (fun c => (utf8Char c).length)).sum = n := by
  induction n with
  | zero => rfl
  | succ n ih =>
    rw [List.replicate_succ, List.map_cons, List.sum_cons, ih]
    have : (utf8Char 'a').length = 1 := by decide
    omega

/-! ## The rewrite loop of `RemoveRun` -/

theorem linesBytes_cons_append (w l : Bytes) (ls : List Bytes) :
    w ++ (l ++ [10]) ++ linesBytes ls = w ++ linesBytes (l :: ls) := by
  simp [linesBytes, List.append_assoc]

theorem getFileSize_ne_zero (content : Bytes) (hne : content ≠ []) :
    (GetFileSize (some content) == 0) = false := by
  have h2 : content.length ≠ 0 := fun e => hne (List.length_eq_zero.1 e)
  exact beq_false_of_ne h2

theorem utf8_dot : utf8 "." = [46] := by decide

theorem rewriteStore_store (io : Faults) (fs : FS) (patterns : List Bytes)
    (hfail : (rewriteStore io fs patterns).1 ≠ .returned)
    (hstep : (rewriteStore io fs patterns).1 ≠ .fatal .rename) :
    (rewriteStore io fs patterns).2.addedFiles = fs.addedFiles := by
  unfold rewriteStore at hfail hstep ⊢
  dsimp only at hfail hstep ⊢
  split
  · rfl
  · split
    · rfl
    · split
      · rfl
      · split
        · rfl
        · rename_i h1 h2 h3 h4
          rw [if_neg h1, if_neg h2, if_neg h3, if_neg h4] at hfail hstep
          split
          · rename_i h5
            rw [if_pos h5] at hstep
            exact absurd rfl hstep
          · rename_i h5
            rw [if_neg h5] at hfail
            exact absurd rfl hfail

theorem rewriteStore_rename (io : Faults) (fs : FS) (patterns : List Bytes)
    (h : (rewriteStore io fs patterns).1 = .fatal .rename) :
    (rewriteStore io fs patterns).2 =
      ⟨none, some (overwrite (fs.temp.getD [])
        (scanLoop io patterns (ScanLinesBytes (fs.addedFiles.getD [])) ⟨[], [], 0⟩).1.written)⟩ := by
  unfold rewriteStore at h ⊢
  dsimp only at h ⊢
  by_cases h1 : io.openStore = true
  · rw [if_pos h1] at h
    exact absurd h (by simp)
  · rw [if_neg h1] at h ⊢
    by_cases h2 : io.openTemp = true
    · rw [if_pos h2] at h
      exact absurd h (by simp)
    · rw [if_neg h2] at h ⊢
      by_cases h3 : (scanLoop io patterns (ScanLinesBytes (fs.addedFiles.getD [])) ⟨[], [], 0⟩).2 = true
      · rw [if_pos h3] at h
        exact absurd h (by simp)
      · rw [if_neg h3] at h ⊢
        by_cases h4 : io.remove = true
        · rw [if_pos h4] at h
          exact absurd h (by simp)
        · rw [if_neg h4] at h ⊢
          by_cases h5 : io.rename = true
          · rw [if_pos h5]
          · rw [if_neg h5] at h
            exact absurd h (by simp)

/-- C1 (the code departs from the claim): with the patterns `src/*` and `docs/*`
every line of the store matches one of the two patterns, and `RemoveRun` keeps all
three lines, because it drops a line only when every pattern matches it. -/
theorem RemoveRun_keeps_line_matching_one_pattern :
    matchLine (utf8 "docs/*") (utf8 "docs/readme.md") = true ∧
    matchLine (utf8 "src/*") (utf8 "src/main.go") = true ∧
    matchLine (utf8 "src/*") (utf8 "src/util.go") = true ∧
    RemoveRun noFaults ⟨some (utf8 "docs/readme.md\nsrc/main.go\nsrc/util.go\n"), none⟩
        false [utf8 "src/*", utf8 "docs/*"] =
      (.returned, ⟨some (utf8 "docs/readme.md\nsrc/main.go\nsrc/util.go\n"), none⟩) := by
  decide

/-- C9: on an existing non-empty store, `RemoveRun` with the all flag set, or with
"." as its first pattern, returns with the store present and empty (no line), the
temporary file untouched, whatever the store held and whatever other patterns
follow, provided the truncating open succeeds. -/
theorem RemoveRun_clear_all (io : Faults) (fs : FS) (content : Bytes) (all : Bool)
    (patterns : List Bytes)
    (hstore : fs.addedFiles = some content) (hne : content ≠ [])
    (hclear : all = true ∨ patterns.head? = some (utf8 ".")) (hio : io.truncate = false) :
    RemoveRun io fs all patterns = (.returned, ⟨some [], fs.temp⟩) ∧
      ScanLinesBytes [] = [] ∧ fileLinesBytes [] = [] := by
  refine ⟨?_, by decide, by decide⟩
  have hsel : (if all then some true else patterns.head?.map (fun p => p == utf8 ".")) =
      some true := by
    rcases hclear with h | h
    · simp [h]
    · cases all <;> simp [h]
  simp only [RemoveRun, hstore, FileExists, Option.isSome_some, Bool.not_true,
    getFileSize_ne_zero content hne, Bool.or_self, Bool.false_eq_true, if_false, hsel, hio]

/-- Witness of C9: the flag with no pattern at all, and a leading "." followed by
another pattern. -/
theorem RemoveRun_clear_all_witness :
    RemoveRun noFaults ⟨some (utf8 "a\nb\n"), none⟩ true [] = (.returned, ⟨some [], none⟩) ∧
    RemoveRun noFaults ⟨some (utf8 "a\nb\n"), none⟩ false [utf8 ".", utf8 "zzz"] =
      (.returned, ⟨some [], none⟩) :=
  ⟨(RemoveRun_clear_all noFaults ⟨some (utf8 "a\nb\n"), none⟩ (utf8 "a\nb\n") true [] rfl
      (by decide) (Or.inl rfl) rfl).1,
   (RemoveRun_clear_all noFaults ⟨some (utf8 "a\nb\n"), none⟩ (utf8 "a\nb\n") false
      [utf8 ".", utf8 "zzz"] rfl (by decide) (Or.inr rfl) rfl).1⟩

/-- C6, as stated, fails: when `os.Rename` fails, the original has already been
removed, so the store is missing and the rewritten lines sit in the temporary
file. -/
theorem RemoveRun_rename_failure_counterexample :
    RemoveRun { noFaults with rename := true } ⟨some (utf8 "a\nb\n"), none⟩ false [utf8 "b"] =
      (.fatal .rename, ⟨none, some (utf8 "a\n")⟩) := by
  decide

/-- C6 (amended): when `RemoveRun` does not return and the failing step is not the
rename (the precondition, an open, a write to the temporary file, the removal of
the original, or the index expression), the store is what it was before the run;
when the rename fails, the store is missing and the temporary file holds what the
rewrite wrote. -/
theorem RemoveRun_store_kept_before_rename (io : Faults) (fs : FS) (all : Bool)
    (patterns : List Bytes)
    (hfail : (RemoveRun io fs all patterns).1 ≠ .returned) :
    ((RemoveRun io fs all patterns).1 ≠ .fatal .rename →
      (RemoveRun io fs all patterns).2.addedFiles = fs.addedFiles) ∧
    ((RemoveRun io fs all patterns).1 = .fatal .rename →
      (RemoveRun io fs all patterns).2 =
        ⟨none, some (overwrite (fs.temp.getD [])
          (scanLoop io patterns (ScanLinesBytes (fs.addedFiles.getD []))
            ⟨[], [], 0⟩).1.written)⟩) := by
  unfold RemoveRun at hfail ⊢
  split
  · exact ⟨fun _ => rfl, fun h => absurd h (by simp)⟩
  · rename_i h0
    rw [if_neg h0] at hfail
    split
    · exact ⟨fun _ => rfl, fun h => absurd h (by simp)⟩
    · rename_i hsel
      rw [hsel] at hfail
      dsimp only at hfail
      split
      · exact ⟨fun _ => rfl, fun h => absurd h (by simp)⟩
      · rename_i h1
        rw [if_neg h1] at hfail
        exact absurd rfl hfail
    · rename_i hsel
      rw [hsel] at hfail
      exact ⟨fun hstep => rewriteStore_store io fs patterns hfail hstep,
        fun h => rewriteStore_rename io fs patterns h⟩

/-- Witness of C6 (amended): a failing removal of the original leaves the store as
it was; a failing rename leaves it missing. -/
theorem RemoveRun_store_kept_before_rename_witness :
    (RemoveRun { noFaults with remove := true } ⟨some (utf8 "a\nb\n"), none⟩ false
        [utf8 "b"]).2.addedFiles = some (utf8 "a\nb\n") ∧
    (RemoveRun { noFaults with rename := true } ⟨some (utf8 "a\nb\n"), none⟩ false
        [utf8 "b"]).2.addedFiles = none :=
  ⟨(RemoveRun_store_kept_before_rename { noFaults with remove := true }
      ⟨some (utf8 "a\nb\n"), none⟩ false [utf8 "b"] (by decide)).1 (by decide),
   by
    rw [(RemoveRun_store_kept_before_rename { noFaults with rename := true }
      ⟨some (utf8 "a\nb\n"), none⟩ false [utf8 "b"] (by decide)).2 (by decide)]⟩

/-! ## Fields, TrimSpace and Join -/

theorem fieldsAux_noSpace (w rest cur : List Char) (hw : NoSpace w) :
    fieldsAux (w ++ rest) cur = fieldsAux rest (w.reverse ++ cur) := by
  induction w generalizing cur with
  | nil => rfl
  | cons c w ih =>
    have hc : isSpace c = false := hw c (List.mem_cons_self _ _)
    have hw2 : NoSpace w := fun x hx => hw x (List.mem_cons_of_mem _ hx)
    rw [List.cons_append, List.reverse_cons, List.append_assoc, List.singleton_append]
    simp only [fieldsAux, hc, Bool.false_eq_true, if_false]
    exact ih _ hw2

theorem fieldsAux_tokens (l cur : List Char) (hcur : NoSpace cur) :
    ∀ tok ∈ fieldsAux l cur, tok.data ≠ [] ∧ NoSpace tok.data := by
  induction l generalizing cur with
  | nil =>
    intro tok htok
    by_cases h : cur = []
    · simp [fieldsAux, h] at htok
    · simp only [fieldsAux, h, if_false, List.mem_singleton] at htok
      subst htok
      refine ⟨by simpa using h, ?_⟩
      intro c hc
      exact hcur c (by simpa using hc)
  | cons c cs ih =>
    intro tok htok
    by_cases hs : isSpace c = true
    · by_cases h : cur = []
      · simp only [fieldsAux, hs, if_true, h] at htok
        exact ih [] (fun _ h => absurd h (List.not_mem_nil _)) tok htok
      · simp only [fieldsAux, hs, if_true, h, if_false, List.mem_cons] at htok
        rcases htok with rfl | htok
        · refine ⟨by simpa using h, ?_⟩
          intro c hc
          exact hcur c (by simpa using hc)
        · exact ih [] (fun _ h => absurd h (List.not_mem_nil _)) tok htok
    · simp only [fieldsAux, hs, Bool.false_eq_true, if_false] at htok
      refine ih (c :: cur) ?_ tok htok
      intro x hx
      rcases List.mem_cons.1 hx with rfl | hx
      · simpa using hs
      · exact hcur x hx

theorem Fields_tokens (s : String) :
    ∀ tok ∈ Fields s, tok.data ≠ [] ∧ NoSpace tok.data :=
  fieldsAux_tokens s.data [] (fun _ h => absurd h (List.not_mem_nil _))

theorem Join_noSpace (ts : List String) (h : ∀ tok ∈ ts, NoSpace tok.data) :
    NoSpace (Join ts "-").data := by
  induction ts with
  | nil => intro c hc; simp [Join] at hc
  | cons a l ih =>
    cases l with
    | nil => exact h a (List.mem_cons_self _ _)
    | cons b r =>
      intro c hc
      simp only [Join, String.data_append, List.mem_append] at hc
      rcases hc with (hc | hc) | hc
      · exact h a (List.mem_cons_self _ _) c hc
      · have : c = '-' := by simpa using hc
        subst this
        decide
      · exact ih (fun t ht => h t (List.mem_cons_of_mem _ ht)) c hc

theorem Join_ne_nil (ts : List String) (hne : ts ≠ []) (h : ∀ tok ∈ ts, tok.data ≠ []) :
    (Join ts "-").data ≠ [] := by
  cases ts with
  | nil => exact absurd rfl hne
  | cons a l =>
    cases l with
    | nil => exact h a (List.mem_cons_self _ _)
    | cons b r =>
      simp only [Join, String.data_append, ne_eq, List.append_eq_nil, not_and]
      intro h1
      exact absurd h1.1 (h a (List.mem_cons_self _ _))

theorem Fields_of_noSpace (w : String) (hne : w.data ≠ []) (hw : NoSpace w.data) :
    Fields w = [w] := by
  have h := fieldsAux_noSpace w.data [] [] hw
  simp only [List.append_nil] at h
  unfold Fields
  rw [h]
  simp [fieldsAux, hne]

theorem Fields_two (cid dn : String) (hcid : cid.data ≠ []) (hcs : NoSpace cid.data)
    (hdn : dn.data ≠ []) (hds : NoSpace dn.data) :
    Fields (cid ++ delimiter ++ dn) = [cid, dn] := by
  unfold Fields
  have e : (cid ++ delimiter ++ dn).data = cid.data ++ (' ' :: ' ' :: (dn.data ++ [])) := by
    simp [delimiter]
  rw [e, fieldsAux_noSpace _ _ _ hcs]
  have hsp : isSpace ' ' = true := by decide
  have hr : cid.data.reverse ++ [] ≠ [] := by simpa using hcid
  simp only [fieldsAux, hsp, if_true, hr, if_false]
  rw [fieldsAux_noSpace _ _ _ hds]
  simp [fieldsAux, hdn]

theorem dropWhile_isSpace_of_head (l : List Char) (h : ∀ c, l.head? = some c → isSpace c = false) :
    l.dropWhile isSpace = l := by
  cases l with
  | nil => rfl
  | cons c t => simp [List.dropWhile, h c rfl]

theorem TrimSpace_of_ends (s : String)
    (hfirst : ∀ c, s.data.head? = some c → isSpace c = false)
    (hlast : ∀ c, s.data.getLast? = some c → isSpace c = false) :
    TrimSpace s = s := by
  unfold TrimSpace
  rw [dropWhile_isSpace_of_head _ hfirst, dropWhile_isSpace_of_head]
  · simp
  · intro c hc
    apply hlast
    simpa [List.head?_reverse] using hc


/-! ## Maps -/

theorem mapContains_iff (m : GoMap) (k : String) :
    mapContains m k = true ↔ k ∈ m.map Prod.fst := by
  simp [mapContains]

theorem mapSet_of_not_mem (m : GoMap) (k v : String) (h : k ∉ m.map Prod.fst) :
    mapSet m k v = m ++ [(k, v)] := by
  induction m with
  | nil => rfl
  | cons e m ih =>
    simp only [List.map_cons, List.mem_cons, not_or] at h
    have h1 : ¬ e.1 = k := fun x => h.1 x.symm
    simp only [mapSet, h1, if_false, ih h.2, List.cons_append]

theorem mem_keys_mapSet (m : GoMap) (k v x : String) :
    x ∈ (mapSet m k v).map Prod.fst ↔ x = k ∨ x ∈ m.map Prod.fst := by
  induction m with
  | nil => simp [mapSet]
  | cons e m ih =>
    by_cases h : e.1 = k
    · simp only [mapSet, h, if_true, List.map_cons, List.mem_cons]
      tauto
    · simp only [mapSet, h, if_false, List.map_cons, List.mem_cons, ih]
      tauto

theorem nodup_keys_mapSet (m : GoMap) (k v : String) (h : (m.map Prod.fst).Nodup) :
    ((mapSet m k v).map Prod.fst).Nodup := by
  induction m with
  | nil => simp [mapSet]
  | cons e m ih =>
    simp only [List.map_cons, List.nodup_cons] at h
    by_cases hk : e.1 = k
    · simp only [mapSet, hk, if_true, List.map_cons, List.nodup_cons]
      exact ⟨hk ▸ h.1, h.2⟩
    · simp only [mapSet, hk, if_false, List.map_cons, List.nodup_cons]
      refine ⟨?_, ih h.2⟩
      intro hmem
      rcases (mem_keys_mapSet m k v e.1).1 hmem with e1 | e1
      · exact hk e1
      · exact h.1 e1

theorem mapGet_mapSet (m : GoMap) (k v x : String) :
    mapGet (mapSet m k v) x = if x = k then some v else mapGet m x := by
  induction m with
  | nil =>
    by_cases h : x = k
    · simp [mapSet, mapGet, h]
    · have h2 : ¬ k = x := fun e => h e.symm
      simp [mapSet, mapGet, h, h2]
  | cons e m ih =>
    by_cases hk : e.1 = k
    · by_cases h : x = k
      · simp [mapSet, mapGet, hk, h]
      · have h2 : ¬ k = x := fun e => h e.symm
        simp [mapSet, mapGet, hk, h, h2, List.find?_cons]
    · by_cases hx : e.1 = x
      · have h : ¬ x = k := fun e => hk (hx.trans e)
        simp [mapSet, mapGet, hk, hx, h, List.find?_cons]
      · have ih2 : Option.map Prod.snd (List.find? (fun e => e.1 == x) (mapSet m k v)) =
            if x = k then some v else Option.map Prod.snd (List.find? (fun e => e.1 == x) m) := ih
        have hb : (e.1 == x) = false := beq_false_of_ne hx
        simp only [mapSet, mapGet, hk, if_false, List.find?_cons, hb, ih2]

theorem mapGet_of_mem (m : GoMap) (k v : String) (hn : (m.map Prod.fst).Nodup)
    (h : (k, v) ∈ m) : mapGet m k = some v := by
  induction m with
  | nil => simp at h
  | cons e m ih =>
    simp only [List.map_cons, List.nodup_cons] at hn
    rcases List.mem_cons.1 h with rfl | h
    · simp [mapGet, List.find?_cons]
    · have hne : ¬ e.1 = k := by
        intro e1
        exact hn.1 (e1 ▸ List.mem_map_of_mem Prod.fst h)
      have := ih hn.2 h
      simp only [mapGet] at this
      simp [mapGet, List.find?_cons, hne, this]

theorem mapContains_mapDelete (m : GoMap) (k x : String) (h : x ≠ k) :
    mapContains (mapDelete m k) x = mapContains m x := by
  rw [Bool.eq_iff_iff, mapContains_iff, mapContains_iff]
  simp only [mapDelete, List.mem_map, List.mem_filter, Bool.not_eq_true', beq_eq_false_iff_ne]
  constructor
  · rintro ⟨e, ⟨he, _⟩, rfl⟩
    exact ⟨e, he, rfl⟩
  · rintro ⟨e, he, rfl⟩
    exact ⟨e, ⟨he, h⟩, rfl⟩


/-! ## The loops of `fillMapWithCID` and `amendExisting` -/

theorem pathListLoop_ok (ipfsAdd : String → Except String String) (cidOf : String → String)
    (link : String) (lines : List String) (m0 : GoMap)
    (hadd : ∀ p ∈ (lines.map TrimSpace).filter (fun l => decide (l.length > 0)),
      ipfsAdd (filepathJoin link p) = .ok (cidOf p)) :
    pathListLoop ipfsAdd link lines m0 =
      .ok (stagedMap cidOf ((lines.map TrimSpace).filter (fun l => decide (l.length > 0))) m0) := by
  induction lines generalizing m0 with
  | nil => rfl
  | cons text rest ih =>
    by_cases h : (TrimSpace text).length > 0
    · have hmem : TrimSpace text ∈ ((text :: rest).map TrimSpace).filter
          (fun l => decide (l.length > 0)) := by
        simp [List.filter_cons, h]
      have hrest : ∀ p ∈ (rest.map TrimSpace).filter (fun l => decide (l.length > 0)),
          ipfsAdd (filepathJoin link p) = .ok (cidOf p) := by
        intro p hp
        apply hadd
        simp only [List.map_cons, List.filter_cons, h, decide_True, if_true]
        exact List.mem_cons_of_mem _ hp
      simp only [pathListLoop, h, if_true, hadd _ hmem, ih _ hrest, List.map_cons,
        List.filter_cons, decide_True, stagedMap, List.foldl_cons]
    · have hrest : ∀ p ∈ (rest.map TrimSpace).filter (fun l => decide (l.length > 0)),
          ipfsAdd (filepathJoin link p) = .ok (cidOf p) := by
        intro p hp
        apply hadd
        simpa only [List.map_cons, List.filter_cons, h, decide_False, Bool.false_eq_true,
          if_false] using hp
      simp only [pathListLoop, h, if_false, ih _ hrest, List.map_cons, List.filter_cons,
        decide_False, Bool.false_eq_true]

theorem stagedMap_nodup (cidOf : String → String) (paths : List String) (m0 : GoMap)
    (h : (m0.map Prod.fst).Nodup) : ((stagedMap cidOf paths m0).map Prod.fst).Nodup := by
  induction paths generalizing m0 with
  | nil => exact h
  | cons p ps ih => exact ih _ (nodup_keys_mapSet m0 _ _ h)

theorem stagedMap_mem_keys (cidOf : String → String) (paths : List String) (m0 : GoMap)
    (c : String) :
    c ∈ (stagedMap cidOf paths m0).map Prod.fst ↔
      c ∈ m0.map Prod.fst ∨ ∃ p ∈ paths, cidOf p = c := by
  induction paths generalizing m0 with
  | nil => simp [stagedMap]
  | cons p ps ih =>
    have := ih (mapSet m0 (cidOf p) (Base p))
    simp only [stagedMap, List.foldl_cons] at this ⊢
    rw [this, mem_keys_mapSet]
    simp only [List.mem_cons, exists_eq_or_imp]
    constructor
    · rintro ((h | h) | h)
      · exact Or.inr (Or.inl h.symm)
      · exact Or.inl h
      · exact Or.inr (Or.inr h)
    · rintro (h | h | h)
      · exact Or.inl (Or.inr h)
      · exact Or.inl (Or.inl h.symm)
      · exact Or.inr h

theorem stagedMap_get (cidOf : String → String) (paths : List String) (m0 : GoMap)
    (c : String) :
    mapGet (stagedMap cidOf paths m0) c =
      match paths.reverse.find? (fun p => cidOf p == c) with
      | some p => some (Base p)
      | none => mapGet m0 c := by
  induction paths generalizing m0 with
  | nil => simp [stagedMap]
  | cons p ps ih =>
    have := ih (mapSet m0 (cidOf p) (Base p))
    simp only [stagedMap, List.foldl_cons] at this ⊢
    rw [this, List.reverse_cons, List.find?_append]
    cases hf : List.find? (fun p => cidOf p == c) ps.reverse with
    | some q => simp
    | none =>
      by_cases hc : cidOf p = c
      · simp [mapGet_mapSet, hc, List.find?_cons]
      · have hc2 : ¬ c = cidOf p := fun e => hc e.symm
        simp [mapGet_mapSet, hc, hc2, List.find?_cons]

theorem keySetLoop_ok (f : String) (lines : List String) (m0 : GoMap)
    (hwf : ∀ line ∈ lines, (TrimSpace line).length > 0 → (Fields (TrimSpace line)).length = 2) :
    ∃ M, keySetLoop f lines m0 = .ok M ∧
      ∀ c, c ∈ M.map Prod.fst ↔ c ∈ m0.map Prod.fst ∨
        c ∈ (((lines.map TrimSpace).filter (fun l => decide (l.length > 0))).map
          (fun l => (Fields l).headD "")) := by
  induction lines generalizing m0 with
  | nil => exact ⟨m0, rfl, by simp⟩
  | cons text rest ih =>
    have hrest : ∀ line ∈ rest, (TrimSpace line).length > 0 →
        (Fields (TrimSpace line)).length = 2 :=
      fun line hl => hwf line (List.mem_cons_of_mem _ hl)
    by_cases h : (TrimSpace text).length > 0
    · obtain ⟨k, v, hkv⟩ := List.length_eq_two.1 (hwf text (List.mem_cons_self _ _) h)
      obtain ⟨M, hM, hkeys⟩ := ih (mapSet m0 k v) hrest
      refine ⟨M, ?_, ?_⟩
      · simp only [keySetLoop, h, if_true, hkv, hM]
      · intro c
        rw [hkeys c, mem_keys_mapSet]
        simp only [List.map_cons, List.filter_cons, h, decide_True, if_true, hkv, List.headD_cons,
          List.mem_cons]
        tauto
    · obtain ⟨M, hM, hkeys⟩ := ih m0 hrest
      refine ⟨M, ?_, ?_⟩
      · simp only [keySetLoop, h, if_false, hM]
      · intro c
        rw [hkeys c]
        simp only [List.map_cons, List.filter_cons, h, decide_False, Bool.false_eq_true, if_false]

theorem keySetLoop_malformed (f : String) (lines : List String) (m0 : GoMap)
    (h : ∃ line ∈ lines, (TrimSpace line).length > 0 ∧ (Fields (TrimSpace line)).length ≠ 2) :
    keySetLoop f lines m0 = .error (.malformedKeySet f) := by
  induction lines generalizing m0 with
  | nil =>
    obtain ⟨line, hl, _⟩ := h
    simp at hl
  | cons text rest ih =>
    by_cases hgood : (TrimSpace text).length > 0 ∧ (Fields (TrimSpace text)).length ≠ 2
    · simp only [keySetLoop, hgood.1, if_true]
      split
      · rename_i k v hkv
        exact absurd (by simp [hkv]) hgood.2
      · rfl
    · have hrest : ∃ line ∈ rest, (TrimSpace line).length > 0 ∧
          (Fields (TrimSpace line)).length ≠ 2 := by
        obtain ⟨line, hl, hbad⟩ := h
        rcases List.mem_cons.1 hl with rfl | hl
        · exact absurd hbad hgood
        · exact ⟨line, hl, hbad⟩
      by_cases hlen : (TrimSpace text).length > 0
      · have h2 : (Fields (TrimSpace text)).length = 2 := by
          by_contra hne
          exact hgood ⟨hlen, hne⟩
        obtain ⟨k, v, hkv⟩ := List.length_eq_two.1 h2
        simp only [keySetLoop, hlen, if_true, hkv, ih _ hrest]
      · simp only [keySetLoop, hlen, if_false, ih _ hrest]

theorem diffLoop_newFiles (P : List (String × String)) (K ks nf : GoMap)
    (hP : (P.map Prod.fst).Nodup)
    (hks : ∀ e ∈ P, mapContains ks e.1 = mapContains K e.1)
    (hnf : ∀ e ∈ P, e.1 ∉ nf.map Prod.fst) :
    (diffLoop P ks nf).2 =
      nf ++ (P.filter (fun e => !mapContains K e.1)).map
        (fun e => (e.1, Join (Fields (Base e.2)) "-")) := by
  induction P generalizing ks nf with
  | nil => simp [diffLoop]
  | cons e rest ih =>
    obtain ⟨cid, path⟩ := e
    simp only [List.map_cons, List.nodup_cons] at hP
    have hne : ∀ e ∈ rest, e.1 ≠ cid := by
      intro e he h
      exact hP.1 (h ▸ List.mem_map_of_mem Prod.fst he)
    have hk := hks (cid, path) (List.mem_cons_self _ _)
    simp only at hk
    by_cases hc : mapContains K cid = true
    · have hc1 : mapContains ks cid = true := hk.trans hc
      simp only [diffLoop, hc1, Bool.not_true, Bool.false_eq_true, if_false, List.filter_cons, hc]
      apply ih _ _ hP.2
      · intro e he
        rw [mapContains_mapDelete _ _ _ (hne e he)]
        exact hks e (List.mem_cons_of_mem _ he)
      · intro e he
        exact hnf e (List.mem_cons_of_mem _ he)
    · simp only [Bool.not_eq_true] at hc
      have hc1 : mapContains ks cid = false := hk.trans hc
      simp only [diffLoop, hc1, Bool.not_false, if_true, List.filter_cons, hc, List.map_cons]
      rw [mapSet_of_not_mem _ _ _ (hnf (cid, path) (List.mem_cons_self _ _))]
      rw [ih _ _ hP.2]
      · simp
      · intro e he
        exact hks e (List.mem_cons_of_mem _ he)
      · intro e he
        simp only [List.map_append, List.map_cons, List.map_nil, List.mem_append,
          List.mem_singleton, not_or]
        exact ⟨hnf e (List.mem_cons_of_mem _ he), hne e he⟩

theorem writeAt_append (a b w : Bytes) :
    writeAt (a ++ b) a.length w = a ++ w ++ b.drop w.length := by
  unfold writeAt
  rw [List.take_left, List.drop_append]

theorem writeAt_end (file w : Bytes) : writeAt file file.length w = file ++ w := by
  have h := writeAt_append file [] w
  rw [List.append_nil, List.drop_nil, List.append_nil] at h
  exact h

theorem utf8_linesText_cons (l : String) (ls : List String) :
    utf8 (linesText (l :: ls)) = utf8 (l ++ "\n") ++ utf8 (linesText ls) := by
  rw [linesText, utf8_append]

theorem appendLoop_eq (L : List (String × String)) (file : Bytes) :
    appendLoop L file file.length =
      file ++ utf8 (linesText (L.map (fun e => getKeySetLine e.2 e.1))) := by
  induction L generalizing file with
  | nil =>
    rw [appendLoop, List.map_nil]
    exact (List.append_nil file).symm
  | cons e rest ih =>
    obtain ⟨cid, filename⟩ := e
    rw [appendLoop, writeAt_end, ← List.length_append, ih, List.map_cons, utf8_linesText_cons,
      List.append_assoc]

theorem Join_Fields_idem (x : String) :
    Join (Fields (Join (Fields x) "-")) "-" = Join (Fields x) "-" := by
  by_cases h : Fields x = []
  · rw [h]
    decide
  · have hs : NoSpace (Join (Fields x) "-").data :=
      Join_noSpace _ (fun t ht => (Fields_tokens x t ht).2)
    have hn : (Join (Fields x) "-").data ≠ [] :=
      Join_ne_nil _ h (fun t ht => (Fields_tokens x t ht).1)
    rw [Fields_of_noSpace _ hn hs]
    rfl

theorem Base_idem (p : String) : Base (Base p) = Base p := by
  by_cases h : p.data = []
  · simp only [Base, h, if_true]
    decide
  · by_cases hl : (List.takeWhile (fun c => !(c == '/'))
        (List.dropWhile (fun c => c == '/') p.data.reverse)).reverse = []
    · simp only [Base, h, if_false, hl, if_true]
      decide
    · have hb : Base p = String.mk (List.takeWhile (fun c => !(c == '/'))
          (List.dropWhile (fun c => c == '/') p.data.reverse)).reverse := by
        simp only [Base, h, if_false, hl]
      rw [hb]
      generalize hw : List.takeWhile (fun c => !(c == '/'))
        (List.dropWhile (fun c => c == '/') p.data.reverse) = w at hl
      have hall : ∀ x ∈ w, (!(x == '/')) = true := by
        intro x hx
        rw [← hw] at hx
        exact List.mem_takeWhile_imp (p := fun c => !(c == '/')) hx
      have hd : List.dropWhile (fun c => c == '/') w = w := by
        cases w with
        | nil => rfl
        | cons c t =>
          have := hall c (List.mem_cons_self _ _)
          simp only [Bool.not_eq_true'] at this
          simp [List.dropWhile, this]
      have ht : List.takeWhile (fun c => !(c == '/')) w = w :=
        List.takeWhile_eq_self_iff.2 hall
      simp only [Base, List.reverse_eq_nil_iff, List.reverse_reverse, hd, ht]
      simp only [List.reverse_eq_nil_iff] at hl
      simp [hl]

theorem ext_addedFilesPath : ¬ Ext AddedFilesPath = ".ks" := by decide

theorem scanAux_mem {α : Type} [DecidableEq α] (nl cr : α) (size : α → Nat)
    (l cur : List α) (n start : Nat) :
    ∀ x ∈ (scanAux nl cr size l cur n start).1, x ∈ linesAux nl cr l cur := by
  induction l generalizing cur n start with
  | nil =>
    intro x hx
    by_cases hn : MaxScanTokenSize ≤ n
    · simp [scanAux, hn] at hx
    · simpa [scanAux, linesAux, hn] using hx
  | cons c cs ih =>
    intro x hx
    by_cases hn : MaxScanTokenSize ≤ n
    · simp [scanAux, hn] at hx
    · by_cases hc : c = nl
      · simp only [scanAux, hn, if_false, hc, if_true, List.mem_cons] at hx
        simp only [linesAux, hc, if_true, List.mem_cons]
        rcases hx with h | h
        · exact Or.inl h
        · exact Or.inr (ih _ _ _ x h)
      · simp only [scanAux, hn, if_false, hc] at hx
        simp only [linesAux, hc, if_false]
        exact ih _ _ _ x hx

theorem ScanLines_subset (content : String) : ∀ x ∈ ScanLines content, x ∈ fileLines content := by
  intro x hx
  unfold ScanLines at hx
  unfold fileLines
  obtain ⟨y, hy, rfl⟩ := List.mem_map.1 hx
  exact List.mem_map_of_mem _ (scanAux_mem _ _ _ _ _ _ _ y hy)

theorem scannedPaths_subset (addedFiles : String) :
    ∀ p ∈ scannedPaths addedFiles, p ∈ stagedPaths addedFiles := by
  intro p hp
  unfold scannedPaths at hp
  unfold stagedPaths
  obtain ⟨h1, h2⟩ := List.mem_filter.1 hp
  obtain ⟨y, hy, rfl⟩ := List.mem_map.1 h1
  exact List.mem_filter.2 ⟨List.mem_map_of_mem _ (ScanLines_subset _ y hy), h2⟩

theorem scannedPaths_of_short (addedFiles : String) (h : ShortLines addedFiles = true) :
    scannedPaths addedFiles = stagedPaths addedFiles := by
  unfold scannedPaths stagedPaths
  rw [ScanLines_eq_fileLines _ h]

/-- Closed form of a successful `amendExisting` on a KeySet file with short lines:
the entries appended are the entries of the staged paths read whose ContentID is
not a key of the KeySet, in the order produced by the two `range` loops. -/
theorem amendExisting_eq (ipfsAdd : String → Except String String) (cidOf : String → String)
    (link : String) (range : GoMap → List (String × String))
    (ksPath keySetFile addedFiles : String)
    (hks : Ext ksPath = ".ks") (hshort : ShortLines keySetFile = true)
    (hwf : ∀ line ∈ fileLines keySetFile, (TrimSpace line).length > 0 →
      (Fields (TrimSpace line)).length = 2)
    (hadd : ∀ p ∈ scannedPaths addedFiles, ipfsAdd (filepathJoin link p) = .ok (cidOf p))
    (hrange : ∀ m, (range m).Perm m) :
    ∃ K : GoMap, (∀ c, c ∈ K.map Prod.fst ↔ c ∈ keySetKeys keySetFile) ∧
      amendExisting ipfsAdd link range ksPath keySetFile addedFiles =
        (none, utf8 keySetFile ++ utf8 (linesText
          ((range (((range (stagedMap cidOf (scannedPaths addedFiles) [])).filter
              (fun e => !mapContains K e.1)).map
              (fun e => (e.1, Join (Fields (Base e.2)) "-")))).map
            (fun e => getKeySetLine e.2 e.1)))) := by
  obtain ⟨K, hK, hkeys⟩ := keySetLoop_ok ksPath (fileLines keySetFile) [] hwf
  refine ⟨K, ?_, ?_⟩
  · intro c
    rw [hkeys c]
    simp [keySetKeys]
  · have h1 : fillMapWithCID ipfsAdd link [] AddedFilesPath addedFiles =
        .ok (stagedMap cidOf (scannedPaths addedFiles) []) := by
      simp only [fillMapWithCID, ext_addedFilesPath, if_false]
      exact pathListLoop_ok ipfsAdd cidOf link _ [] hadd
    have h2 : fillMapWithCID ipfsAdd link [] ksPath keySetFile = .ok K := by
      simp only [fillMapWithCID, hks, if_true, ScanLines_eq_fileLines _ hshort, hK]
    have hP : ((range (stagedMap cidOf (scannedPaths addedFiles) [])).map Prod.fst).Nodup :=
      (((hrange _).map Prod.fst).nodup_iff).2
        (stagedMap_nodup cidOf _ [] (by simp))
    have h3 := diffLoop_newFiles (range (stagedMap cidOf (scannedPaths addedFiles) [])) K K []
      hP (fun _ _ => rfl) (fun _ _ => by simp)
    simp only [amendExisting, h1, h2, h3, List.nil_append, scanEnd_of_short _ hshort,
      appendLoop_eq]


/-! ## Lines of appended text and long lines -/

theorem fileLines_cons (l rest : String) (h1 : ∀ c ∈ l.data, c ≠ '\n')
    (h2 : l.data.getLast? ≠ some '\r') :
    fileLines (l ++ "\n" ++ rest) = l :: fileLines rest := by
  have e : (l ++ "\n" ++ rest).data = l.data ++ '\n' :: rest.data := by simp
  unfold fileLines
  rw [e, linesAux_noNewline _ _ _ _ _ h1, List.map_cons, List.append_nil, dropCR_of_last _ _ h2]

theorem mem_longLine (c : Char) (h : c ∈ longLine.data) : c = 'a' :=
  List.eq_of_mem_replicate h

theorem longLine_data : longLine.data = List.replicate MaxScanTokenSize 'a' := rfl

theorem longLine_data_cons : longLine.data = 'a' :: List.replicate 65535 'a' := rfl

theorem utf8_longLine : utf8 longLine = List.replicate MaxScanTokenSize 97 :=
  utf8Chars_replicate_a _

theorem length_utf8_longLine : (utf8 longLine).length = MaxScanTokenSize := by
  rw [utf8_longLine, List.length_replicate]

theorem scanAux_longLine (rest : String) :
    scanAux '\n' '\r' (fun c => (utf8Char c).length) (longLine ++ rest).data [] 0 0 =
      ([], some MaxScanTokenSize) := by
  have h := scanAux_long '\n' '\r' (fun c => (utf8Char c).length) longLine.data rest.data [] 0 0
    (fun c hc => by rw [mem_longLine c hc]; decide)
    (by
      have hs := sum_size_replicate_a MaxScanTokenSize
      rw [← longLine_data] at hs
      rw [hs]
      omega)
  rw [Nat.zero_add] at h
  rw [String.data_append]
  exact h

theorem ScanLines_longLine (rest : String) : ScanLines (longLine ++ rest) = [] := by
  unfold ScanLines
  rw [scanAux_longLine]
  rfl

theorem scanEnd_longLine (rest : String) :
    scanEnd (longLine ++ rest) = (utf8 longLine).length := by
  unfold scanEnd
  rw [scanAux_longLine, length_utf8_longLine]
  rfl

theorem noSpace_longLine : NoSpace longLine.data := by
  intro c hc
  rw [mem_longLine c hc]
  decide

theorem longLine_data_ne : longLine.data ≠ [] := by
  rw [longLine_data_cons]
  exact List.cons_ne_nil _ _

theorem Fields_longLine : Fields (TrimSpace longLine) = [longLine] := by
  rw [TrimSpace_of_ends, Fields_of_noSpace _ longLine_data_ne noSpace_longLine]
  · intro c hc
    exact noSpace_longLine c (List.mem_of_mem_head? hc)
  · intro c hc
    exact noSpace_longLine c (List.mem_of_getLast?_eq_some hc)

theorem fileLines_longLine : fileLines (longLine ++ "\n") = [longLine] := by
  have h := fileLines_cons longLine ""
    (fun c hc => by rw [mem_longLine c hc]; decide)
    (fun h => absurd (mem_longLine _ (List.mem_of_getLast?_eq_some h)) (by decide))
  rw [String.append_empty] at h
  rw [h]
  rfl

theorem longEntry_data : (longLine ++ "  n").data = longLine.data ++ [' ', ' ', 'n'] := by
  rw [String.data_append]

theorem TrimSpace_longEntry : TrimSpace (longLine ++ "  n") = longLine ++ "  n" := by
  apply TrimSpace_of_ends
  · intro c hc
    rw [longEntry_data, longLine_data_cons] at hc
    simp only [List.cons_append, List.head?_cons, Option.some.injEq] at hc
    rw [← hc]
    decide
  · intro c hc
    rw [longEntry_data, List.getLast?_append_of_ne_nil _ (by simp)] at hc
    simp only [List.getLast?_cons_cons, List.getLast?_singleton, Option.some.injEq] at hc
    rw [← hc]
    decide

theorem Fields_longEntry : Fields (TrimSpace (longLine ++ "  n")) = [longLine, "n"] := by
  have e : longLine ++ "  n" = longLine ++ delimiter ++ "n" := by
    rw [String.append_assoc]
    rfl
  rw [TrimSpace_longEntry, e]
  exact Fields_two longLine "n" longLine_data_ne noSpace_longLine (by decide)
    (fun c hc => by rw [List.mem_singleton.1 hc]; decide)

theorem length_longEntry : (TrimSpace (longLine ++ "  n")).length > 0 := by
  rw [TrimSpace_longEntry, String.length_append]
  have h : "  n".length = 3 := by decide
  omega

theorem fileLines_longEntry (rest : String) :
    fileLines (longLine ++ "  n" ++ "\n" ++ rest) = (longLine ++ "  n") :: fileLines rest := by
  apply fileLines_cons
  · intro c hc
    rw [longEntry_data] at hc
    rcases List.mem_append.1 hc with h | h
    · rw [mem_longLine c h]
      decide
    · intro e
      rw [e] at h
      exact absurd h (by decide)
  · intro h
    rw [longEntry_data, List.getLast?_append_of_ne_nil _ (by simp)] at h
    exact absurd h (by decide)

/-- A run of `amendExisting` on a KeySet file that starts with `longLine`: the
scanner yields no line and leaves the file at the end of its buffer, so a staged
entry is taken as new and written there, over what follows. -/
theorem amendExisting_longLine (ipfsAdd : String → Except String String)
    (link ksPath rest addedFiles cid name : String) (out : Bytes) (hks : Ext ksPath = ".ks")
    (h1 : fillMapWithCID ipfsAdd link [] AddedFilesPath addedFiles = .ok [(cid, name)])
    (hout : utf8 (getKeySetLine (DisplayName name) cid ++ "\n") ++
      (utf8 rest).drop (utf8 (getKeySetLine (DisplayName name) cid ++ "\n")).length = out) :
    amendExisting ipfsAdd link id ksPath (longLine ++ rest) addedFiles =
      (none, utf8 longLine ++ out) := by
  have h2 : fillMapWithCID ipfsAdd link [] ksPath (longLine ++ rest) = .ok [] := by
    unfold fillMapWithCID
    rw [if_pos hks, ScanLines_longLine]
    rfl
  have h3 : (diffLoop [(cid, name)] [] []).2 = [(cid, DisplayName name)] := rfl
  unfold amendExisting
  rw [h1, h2]
  show (none, appendLoop [(cid, DisplayName name)] (utf8 (longLine ++ rest))
    (scanEnd (longLine ++ rest))) = _
  rw [appendLoop, appendLoop, scanEnd_longLine, utf8_append, writeAt_append, List.append_assoc,
    hout]

/-! ## `amendExisting` -/

theorem DisplayName_noSpace (path : String) : NoSpace (DisplayName path).data :=
  Join_noSpace _ (fun t ht => (Fields_tokens (Base path) t ht).2)

theorem keySetLine_clean (c dn : String) (hc : ∀ x ∈ c.data, x ≠ '\n') (hdn : NoSpace dn.data) :
    (∀ x ∈ (c ++ delimiter ++ dn).data, x ≠ '\n') ∧
      (c ++ delimiter ++ dn).data.getLast? ≠ some '\r' := by
  have e : (c ++ delimiter ++ dn).data = c.data ++ (' ' :: ' ' :: dn.data) := by
    simp [delimiter]
  rw [e]
  constructor
  · intro x hx
    rcases List.mem_append.1 hx with h | h
    · exact hc x h
    · rcases List.mem_cons.1 h with rfl | h
      · decide
      · rcases List.mem_cons.1 h with rfl | h
        · decide
        · intro e1
          have := hdn x h
          rw [e1] at this
          exact absurd this (by decide)
  · intro hlast
    have hmem : '\r' ∈ (' ' :: ' ' :: dn.data) := by
      have h2 : (c.data ++ (' ' :: ' ' :: dn.data)).getLast? =
          (' ' :: ' ' :: dn.data).getLast? := by
        rw [List.getLast?_append_of_ne_nil _ (by simp)]
      rw [h2] at hlast
      exact List.mem_of_getLast?_eq_some hlast
    rcases List.mem_cons.1 hmem with h | h
    · exact absurd h (by decide)
    · rcases List.mem_cons.1 h with h | h
      · exact absurd h (by decide)
      · exact absurd (hdn _ h) (by decide)

/-- C2, as stated, fails. When the KeySet file does not end in a newline, the
first new entry is written onto its last line: the line `CID2  fileB.txt` is not
kept. When the KeySet file starts with a line of 65536 bytes or more, here with the
well-formed entry of the ContentID `longLine` and the name `n`, the scanner stops,
and the new entry is written over the file from offset 65536 on: the entry of
`longLine` is lost. -/
theorem amendExisting_appends_counterexample :
    fileLines "CID2  fileB.txt" = ["CID2  fileB.txt"] ∧
    amendExisting demoAdd demoLink id "data/set.ks" "CID2  fileB.txt" "fileA.txt\n" =
      (none, utf8 "CID2  fileB.txtCID1  fileA.txt\n") ∧
    fileLines "CID2  fileB.txtCID1  fileA.txt\n" = ["CID2  fileB.txtCID1  fileA.txt"] ∧
    fileLines (longLine ++ "  n" ++ "\n") = [longLine ++ "  n"] ∧
    Fields (TrimSpace (longLine ++ "  n")) = [longLine, "n"] ∧
    amendExisting demoAdd demoLink id "data/set.ks" (longLine ++ "  n" ++ "\n") "fileA.txt\n" =
      (none, utf8 longLine ++ utf8 "CID1  fileA.txt\n") ∧
    utf8 (longLine ++ "  n" ++ "\n") = utf8 longLine ++ utf8 "  n\n" := by
  refine ⟨by decide, by decide, by decide, ?_, Fields_longEntry, ?_, ?_⟩
  · have h := fileLines_longEntry ""
    rw [String.append_empty] at h
    rw [h]
    rfl
  · rw [String.append_assoc]
    exact amendExisting_longLine demoAdd demoLink "data/set.ks" _ "fileA.txt\n" "CID1"
      "fileA.txt" _ (by decide) (by decide) (by decide)
  · rw [String.append_assoc, utf8_append]
    rfl

/-- C2 (amended): for a KeySet file with the `.ks` extension that is empty or ends
in a newline, every line of which has fewer than 65536 bytes and every non-blank
line of which splits into two fields, a staged list every line of which has fewer
than 65536 bytes and whose paths the addressing service resolves (to `cidOf`) to
ContentIDs without a newline, and any order of map iteration, `amendExisting`
returns without error and leaves the original content followed by exactly one line
`ContentID<two spaces>DisplayName` for each distinct ContentID of a staged path
that is not a key of the KeySet (the name taken from the last staged path with
that ContentID), and nothing else: the lines of the file are the original lines,
in their order, followed by the new ones. -/
theorem amendExisting_appends (ipfsAdd : String → Except String String)
    (cidOf : String → String) (link : String) (range : GoMap → List (String × String))
    (ksPath keySetFile addedFiles : String)
    (hks : Ext ksPath = ".ks")
    (hshortK : ShortLines keySetFile = true) (hshortA : ShortLines addedFiles = true)
    (hnl : keySetFile = "" ∨ keySetFile.data.getLast? = some '\n')
    (hwf : ∀ line ∈ fileLines keySetFile, (TrimSpace line).length > 0 →
      (Fields (TrimSpace line)).length = 2)
    (hadd : ∀ p ∈ stagedPaths addedFiles, ipfsAdd (filepathJoin link p) = .ok (cidOf p))
    (hcid : ∀ p ∈ stagedPaths addedFiles, ∀ x ∈ (cidOf p).data, x ≠ '\n')
    (hrange : ∀ m, (range m).Perm m) :
    ∃ cids : List String, cids.Nodup ∧
      (∀ c, c ∈ cids ↔
        (∃ p ∈ stagedPaths addedFiles, cidOf p = c) ∧ c ∉ keySetKeys keySetFile) ∧
      amendExisting ipfsAdd link range ksPath keySetFile addedFiles =
        (none, utf8 (keySetFile ++ linesText (cids.map (fun c =>
          c ++ delimiter ++ DisplayName (lastStaged cidOf (stagedPaths addedFiles) c))))) ∧
      fileLines (keySetFile ++ linesText (cids.map (fun c =>
          c ++ delimiter ++ DisplayName (lastStaged cidOf (stagedPaths addedFiles) c)))) =
        fileLines keySetFile ++ cids.map (fun c =>
          c ++ delimiter ++ DisplayName (lastStaged cidOf (stagedPaths addedFiles) c)) := by
  obtain ⟨K, hK, heq⟩ := amendExisting_eq ipfsAdd cidOf link range ksPath keySetFile addedFiles
    hks hshortK hwf (by rw [scannedPaths_of_short _ hshortA]; exact hadd) hrange
  rw [scannedPaths_of_short _ hshortA] at heq
  generalize hM : stagedMap cidOf (stagedPaths addedFiles) [] = M at heq
  have hMnd : (M.map Prod.fst).Nodup := by
    rw [← hM]
    exact stagedMap_nodup cidOf _ [] (by simp)
  have hMkeys : ∀ c, c ∈ M.map Prod.fst ↔ ∃ p ∈ stagedPaths addedFiles, cidOf p = c := by
    intro c
    rw [← hM, stagedMap_mem_keys]
    simp
  have hMget : ∀ c v, (c, v) ∈ M →
      v = Base (lastStaged cidOf (stagedPaths addedFiles) c) := by
    intro c v hcv
    have h1 := mapGet_of_mem M c v hMnd hcv
    rw [← hM, stagedMap_get] at h1
    unfold lastStaged
    cases hf : List.find? (fun p => cidOf p == c) (stagedPaths addedFiles).reverse with
    | none =>
      rw [hf] at h1
      simp [mapGet] at h1
    | some q =>
      rw [hf] at h1
      simp only [Option.some.injEq] at h1
      simp [h1]
  generalize hNF : ((range M).filter (fun e => !mapContains K e.1)).map
    (fun e => (e.1, Join (Fields (Base e.2)) "-")) = NF at heq
  have hNFkeys : NF.map Prod.fst = ((range M).filter (fun e => !mapContains K e.1)).map
      Prod.fst := by
    rw [← hNF, List.map_map]
    rfl
  have hNFnd : (NF.map Prod.fst).Nodup := by
    rw [hNFkeys]
    exact (((hrange M).map Prod.fst).nodup_iff.2 hMnd).sublist
      ((List.filter_sublist _).map Prod.fst)
  have hlines : ∀ e ∈ range NF, getKeySetLine e.2 e.1 =
      e.1 ++ delimiter ++ DisplayName (lastStaged cidOf (stagedPaths addedFiles) e.1) := by
    intro e he
    have he2 : e ∈ NF := (hrange NF).mem_iff.1 he
    rw [← hNF] at he2
    obtain ⟨e0, he0, rfl⟩ := List.mem_map.1 he2
    have he0M : e0 ∈ M := (hrange M).mem_iff.1 (List.mem_filter.1 he0).1
    have hv := hMget e0.1 e0.2 he0M
    simp only [getKeySetLine, DisplayName]
    rw [Join_Fields_idem, hv, Base_idem]
  have hfinal : (range NF).map (fun e => getKeySetLine e.2 e.1) =
      ((range NF).map Prod.fst).map (fun c =>
        c ++ delimiter ++ DisplayName (lastStaged cidOf (stagedPaths addedFiles) c)) := by
    rw [List.map_map]
    exact List.map_congr_left hlines
  have hmem : ∀ c, c ∈ (range NF).map Prod.fst ↔
      (∃ p ∈ stagedPaths addedFiles, cidOf p = c) ∧ c ∉ keySetKeys keySetFile := by
    intro c
    rw [((hrange NF).map Prod.fst).mem_iff, hNFkeys, ← hMkeys c, ← hK c, ← mapContains_iff K c]
    simp only [List.mem_map, List.mem_filter, Bool.not_eq_true', Bool.not_eq_true]
    constructor
    · rintro ⟨e, ⟨he, hc⟩, rfl⟩
      exact ⟨⟨e, (hrange M).mem_iff.1 he, rfl⟩, hc⟩
    · rintro ⟨⟨e, he, rfl⟩, hc⟩
      exact ⟨e, ⟨(hrange M).mem_iff.2 he, hc⟩, rfl⟩
  refine ⟨(range NF).map Prod.fst, ((hrange NF).map Prod.fst).nodup_iff.2 hNFnd, hmem, ?_, ?_⟩
  · rw [heq, hfinal, utf8_append]
  · rw [fileLines_append _ _ hnl, fileLines_linesText]
    intro l hl
    obtain ⟨c, hc, rfl⟩ := List.mem_map.1 hl
    obtain ⟨⟨p, hp1, hp⟩, _⟩ := (hmem c).1 hc
    exact keySetLine_clean c _ (hp ▸ hcid p hp1) (DisplayName_noSpace _)

/-- Witness of C2 (amended) and of the spec's asymmetry: two staged files share
`CID1`, the KeySet already holds `CID2`; one line is appended, for `CID1`, named
after the last staged path with that ContentID. -/
theorem amendExisting_appends_witness :
    (∃ cids : List String, cids.Nodup ∧
      (∀ c, c ∈ cids ↔
        (∃ p ∈ stagedPaths "fileA.txt\nfileB.txt\ncopy of A.txt\n", demoCid p = c) ∧
          c ∉ keySetKeys "CID2  fileB.txt\n") ∧
      amendExisting demoAdd demoLink List.reverse "data/set.ks" "CID2  fileB.txt\n"
          "fileA.txt\nfileB.txt\ncopy of A.txt\n" =
        (none, utf8 ("CID2  fileB.txt\n" ++ linesText (cids.map (fun c =>
          c ++ delimiter ++ DisplayName
            (lastStaged demoCid (stagedPaths "fileA.txt\nfileB.txt\ncopy of A.txt\n") c))))) ∧
      fileLines ("CID2  fileB.txt\n" ++ linesText (cids.map (fun c =>
          c ++ delimiter ++ DisplayName
            (lastStaged demoCid (stagedPaths "fileA.txt\nfileB.txt\ncopy of A.txt\n") c)))) =
        fileLines "CID2  fileB.txt\n" ++ cids.map (fun c =>
          c ++ delimiter ++ DisplayName
            (lastStaged demoCid (stagedPaths "fileA.txt\nfileB.txt\ncopy of A.txt\n") c))) ∧
    amendExisting demoAdd demoLink List.reverse "data/set.ks" "CID2  fileB.txt\n"
        "fileA.txt\nfileB.txt\ncopy of A.txt\n" =
      (none, utf8 "CID2  fileB.txt\nCID1  copy-of-A.txt\n") :=
  ⟨amendExisting_appends demoAdd demoCid demoLink List.reverse
    "data/set.ks" "CID2  fileB.txt\n" "fileA.txt\nfileB.txt\ncopy of A.txt\n"
    (by decide) (by decide) (by decide) (by decide) (by decide) (by decide) (by decide)
    (fun m => List.reverse_perm m), by decide⟩

/-- C4, as stated, fails. The KeySet file holds two well-formed entries, the first
with the ContentID `longLine` of 65536 bytes, the second for `CID1`; the one staged
path resolves to `CID1`, a key of the KeySet. The scanner stops at the first line,
so `CID1` is taken as new, and its entry is written over the file from offset 65536
on: the file is not left as it was. -/
theorem amendExisting_idempotent_counterexample :
    fileLines (longLine ++ "  n" ++ "\n" ++ "CID1  fileA.txt\n") =
      [longLine ++ "  n", "CID1  fileA.txt"] ∧
    Fields (TrimSpace (longLine ++ "  n")) = [longLine, "n"] ∧
    Fields (TrimSpace "CID1  fileA.txt") = ["CID1", "fileA.txt"] ∧
    keySetKeys (longLine ++ "  n" ++ "\n" ++ "CID1  fileA.txt\n") = [longLine, "CID1"] ∧
    stagedPaths "fileA.txt\n" = ["fileA.txt"] ∧
    demoAdd (filepathJoin demoLink "fileA.txt") = .ok "CID1" ∧
    amendExisting demoAdd demoLink id "data/set.ks"
        (longLine ++ "  n" ++ "\n" ++ "CID1  fileA.txt\n") "fileA.txt\n" =
      (none, utf8 longLine ++ utf8 "CID1  fileA.txt\ntxt\n") ∧
    utf8 (longLine ++ "  n" ++ "\n" ++ "CID1  fileA.txt\n") =
      utf8 longLine ++ utf8 "  n\nCID1  fileA.txt\n" ∧
    utf8 longLine ++ utf8 "CID1  fileA.txt\ntxt\n" ≠
      utf8 longLine ++ utf8 "  n\nCID1  fileA.txt\n" := by
  have hl : fileLines (longLine ++ "  n" ++ "\n" ++ "CID1  fileA.txt\n") =
      [longLine ++ "  n", "CID1  fileA.txt"] := by
    rw [fileLines_longEntry]
    rfl
  have hlen := length_longEntry
  refine ⟨hl, Fields_longEntry, by decide, ?_, by decide, by decide, ?_, ?_, ?_⟩
  · unfold keySetKeys
    rw [hl]
    simp only [List.map_cons, List.map_nil, List.filter_cons, hlen, decide_True, if_true,
      Fields_longEntry, List.headD_cons]
    rfl
  · rw [String.append_assoc, String.append_assoc]
    exact amendExisting_longLine demoAdd demoLink "data/set.ks" _ "fileA.txt\n" "CID1"
      "fileA.txt" _ (by decide) (by decide) (by decide)
  · rw [String.append_assoc, String.append_assoc, utf8_append]
    rfl
  · intro h
    exact absurd (List.append_cancel_left h) (by decide)

/-- C4 (amended): for a KeySet file with the `.ks` extension every line of which
has fewer than 65536 bytes and every non-blank line of which splits into two
fields, and a staged list every path of which resolves to a ContentID that is
already a key of the KeySet, `amendExisting` returns without error and leaves the
file exactly as it was, whatever the order of map iteration. -/
theorem amendExisting_idempotent (ipfsAdd : String → Except String String)
    (cidOf : String → String) (link : String) (range : GoMap → List (String × String))
    (ksPath keySetFile addedFiles : String)
    (hks : Ext ksPath = ".ks") (hshort : ShortLines keySetFile = true)
    (hwf : ∀ line ∈ fileLines keySetFile, (TrimSpace line).length > 0 →
      (Fields (TrimSpace line)).length = 2)
    (hadd : ∀ p ∈ stagedPaths addedFiles, ipfsAdd (filepathJoin link p) = .ok (cidOf p))
    (hrange : ∀ m, (range m).Perm m)
    (hall : ∀ p ∈ stagedPaths addedFiles, cidOf p ∈ keySetKeys keySetFile) :
    amendExisting ipfsAdd link range ksPath keySetFile addedFiles =
      (none, utf8 keySetFile) := by
  obtain ⟨K, hK, heq⟩ := amendExisting_eq ipfsAdd cidOf link range ksPath keySetFile addedFiles
    hks hshort hwf (fun p hp => hadd p (scannedPaths_subset _ p hp)) hrange
  have hnone : (range (stagedMap cidOf (scannedPaths addedFiles) [])).filter
      (fun e => !mapContains K e.1) = [] := by
    apply List.filter_eq_nil_iff.2
    intro e he
    have heM : e.1 ∈ (stagedMap cidOf (scannedPaths addedFiles) []).map Prod.fst :=
      List.mem_map_of_mem Prod.fst ((hrange _).mem_iff.1 he)
    rw [stagedMap_mem_keys] at heM
    rcases heM with h | ⟨p, hp, hpc⟩
    · simp at h
    · have : mapContains K e.1 = true := by
        rw [mapContains_iff, hK, ← hpc]
        exact hall p (scannedPaths_subset _ p hp)
      simp [this]
  rw [heq, hnone]
  have hr : range [] = [] := List.perm_nil.1 (hrange [])
  rw [List.map_nil, hr, List.map_nil]
  show (none, utf8 keySetFile ++ []) = _
  rw [List.append_nil]

/-- Witness of C4 (amended): both staged files are already in the KeySet, one of
them under another name. -/
theorem amendExisting_idempotent_witness :
    amendExisting demoAdd demoLink id "data/set.ks" "CID1  a.txt\nCID2  fileB.txt\n"
        "fileA.txt\nfileB.txt\ncopy of A.txt\n" =
      (none, utf8 "CID1  a.txt\nCID2  fileB.txt\n") :=
  amendExisting_idempotent demoAdd demoCid demoLink id "data/set.ks"
    "CID1  a.txt\nCID2  fileB.txt\n" "fileA.txt\nfileB.txt\ncopy of A.txt\n"
    (by decide) (by decide) (by decide) (by decide) (fun m => List.Perm.refl m) (by decide)

/-- C3, as stated, fails three times: a KeySet with a blank line (which splits into
no token, not two) is amended without error; when the addressing service fails on
a staged path the run ends with that error, not with the malformed-KeySet error,
although the KeySet has a line of three tokens; and a KeySet whose one line is the
single token `longLine` of 65536 bytes is amended without error, because the
scanner stops before it yields the line, and the new entry is written at offset
65536. -/
theorem amendExisting_malformed_counterexample :
    (∃ line ∈ fileLines "CID1  fileA.txt\n\n", (Fields line).length ≠ 2) ∧
    amendExisting demoAdd demoLink id "data/set.ks" "CID1  fileA.txt\n\n" "fileB.txt\n" =
      (none, utf8 "CID1  fileA.txt\n\nCID2  fileB.txt\n") ∧
    (∃ line ∈ fileLines "CID1 fileA.txt x\n", (Fields line).length ≠ 2) ∧
    amendExisting demoAdd demoLink id "data/set.ks" "CID1 fileA.txt x\n" "missing.txt\n" =
      (some (.addressing "no such file"), utf8 "CID1 fileA.txt x\n") ∧
    fileLines (longLine ++ "\n") = [longLine] ∧
    Fields (TrimSpace longLine) = [longLine] ∧
    amendExisting demoAdd demoLink id "data/set.ks" (longLine ++ "\n") "fileB.txt\n" =
      (none, utf8 longLine ++ utf8 "CID2  fileB.txt\n") := by
  refine ⟨by decide, by decide, by decide, by decide, fileLines_longLine, Fields_longLine, ?_⟩
  exact amendExisting_longLine demoAdd demoLink "data/set.ks" _ "fileB.txt\n" "CID2"
    "fileB.txt" _ (by decide) (by decide) (by decide)

/-- C3 (amended): for a KeySet file with the `.ks` extension every line of which
has fewer than 65536 bytes and which has a non-blank line that does not split into
exactly two fields, `amendExisting` fails and leaves the KeySet file as it was,
whatever the staged list and the order of map iteration; the error is the
malformed-KeySet error whenever the addressing service resolves every staged
path. -/
theorem amendExisting_malformed (ipfsAdd : String → Except String String) (link : String)
    (range : GoMap → List (String × String)) (ksPath keySetFile addedFiles : String)
    (hks : Ext ksPath = ".ks") (hshort : ShortLines keySetFile = true)
    (hbad : ∃ line ∈ fileLines keySetFile,
      (TrimSpace line).length > 0 ∧ (Fields (TrimSpace line)).length ≠ 2) :
    (amendExisting ipfsAdd link range ksPath keySetFile addedFiles).1 ≠ none ∧
    (amendExisting ipfsAdd link range ksPath keySetFile addedFiles).2 = utf8 keySetFile ∧
    ((∀ p ∈ stagedPaths addedFiles, (ipfsAdd (filepathJoin link p)).isOk = true) →
      amendExisting ipfsAdd link range ksPath keySetFile addedFiles =
        (some (.malformedKeySet ksPath), utf8 keySetFile)) := by
  have h2 : fillMapWithCID ipfsAdd link [] ksPath keySetFile =
      .error (.malformedKeySet ksPath) := by
    simp only [fillMapWithCID, hks, if_true, ScanLines_eq_fileLines _ hshort]
    exact keySetLoop_malformed ksPath _ [] hbad
  refine ⟨?_, ?_, ?_⟩
  · unfold amendExisting
    cases fillMapWithCID ipfsAdd link [] AddedFilesPath addedFiles with
    | error e => simp
    | ok m => simp [h2]
  · unfold amendExisting
    cases fillMapWithCID ipfsAdd link [] AddedFilesPath addedFiles with
    | error e => rfl
    | ok m => simp [h2]
  · intro hadd
    have hadd2 : ∀ p ∈ scannedPaths addedFiles,
        ipfsAdd (filepathJoin link p) = .ok (resolved ipfsAdd link p) := by
      intro p hp
      have hc := hadd p (scannedPaths_subset _ p hp)
      unfold resolved
      cases h : ipfsAdd (filepathJoin link p) with
      | ok cid => rfl
      | error e =>
        rw [h] at hc
        exact absurd hc (by simp [Except.isOk, Except.toBool])
    have h1 : fillMapWithCID ipfsAdd link [] AddedFilesPath addedFiles =
        .ok (stagedMap (resolved ipfsAdd link) (scannedPaths addedFiles) []) := by
      simp only [fillMapWithCID, ext_addedFilesPath, if_false]
      exact pathListLoop_ok ipfsAdd _ link _ [] hadd2
    simp only [amendExisting, h1, h2]

/-- Witness of C3 (amended): a line of three fields and a line of one field. -/
theorem amendExisting_malformed_witness :
    amendExisting demoAdd demoLink id "data/set.ks" "CID1 fileA.txt x\n" "fileB.txt\n" =
      (some (.malformedKeySet "data/set.ks"), utf8 "CID1 fileA.txt x\n") ∧
    amendExisting demoAdd demoLink id "data/set.ks" "CID2  fileB.txt\nCID1\n" "fileB.txt\n" =
      (some (.malformedKeySet "data/set.ks"), utf8 "CID2  fileB.txt\nCID1\n") :=
  ⟨(amendExisting_malformed demoAdd demoLink id "data/set.ks" "CID1 fileA.txt x\n"
      "fileB.txt\n" (by decide) (by decide) (by decide)).2.2 (by decide),
   (amendExisting_malformed demoAdd demoLink id "data/set.ks" "CID2  fileB.txt\nCID1\n"
      "fileB.txt\n" (by decide) (by decide) (by decide)).2.2 (by decide)⟩

/-! ## `getKeySetLine` -/

/-- For a ContentID that is one non-empty token without white space and a file name
with at least one character that is not white space, the line being shorter than
65536 bytes, the line of `getKeySetLine` is the ContentID, the delimiter and the name with its fields joined by hyphens; it
splits into these two fields, and `fillMapWithCID` reads it from a `.ks` file as
the entry from the ContentID to that name. -/
theorem getKeySetLine_parses (ipfsAdd : String → Except String String) (link : String)
    (ksPath cid name : String) (hks : Ext ksPath = ".ks")
    (hcid : cid.data ≠ []) (hcs : NoSpace cid.data) (hname : Fields name ≠ [])
    (hshort : ShortLines (getKeySetLine name cid ++ "\n") = true) :
    getKeySetLine name cid = cid ++ delimiter ++ Join (Fields name) "-" ∧
    Fields (getKeySetLine name cid) = [cid, Join (Fields name) "-"] ∧
    fillMapWithCID ipfsAdd link [] ksPath (getKeySetLine name cid ++ "\n") =
      .ok [(cid, Join (Fields name) "-")] := by
  have hds : NoSpace (Join (Fields name) "-").data :=
    Join_noSpace _ (fun t ht => (Fields_tokens name t ht).2)
  have hdn : (Join (Fields name) "-").data ≠ [] :=
    Join_ne_nil _ hname (fun t ht => (Fields_tokens name t ht).1)
  have hf := Fields_two cid _ hcid hcs hdn hds
  refine ⟨rfl, hf, ?_⟩
  have hclean := keySetLine_clean cid (Join (Fields name) "-")
    (fun x hx e => absurd (hcs x hx) (by rw [e]; decide)) hds
  have hscan : ScanLines (getKeySetLine name cid ++ "\n") = [getKeySetLine name cid] := by
    have := fileLines_linesText [getKeySetLine name cid] (by
      intro l hl
      rw [List.mem_singleton.1 hl]
      exact hclean)
    rw [ScanLines_eq_fileLines _ hshort]
    simpa [linesText] using this
  have htrim : TrimSpace (getKeySetLine name cid) = getKeySetLine name cid := by
    apply TrimSpace_of_ends
    · intro c hc
      obtain ⟨c0, t0, h0⟩ := List.exists_cons_of_ne_nil hcid
      have e : (getKeySetLine name cid).data =
          c0 :: (t0 ++ (delimiter ++ Join (Fields name) "-").data) := by
        simp [getKeySetLine, h0, String.append_assoc]
      rw [e] at hc
      simp only [List.head?_cons, Option.some.injEq] at hc
      rw [← hc]
      exact hcs c0 (by rw [h0]; exact List.mem_cons_self _ _)
    · intro c hc
      have e : (getKeySetLine name cid).data =
          (cid ++ delimiter).data ++ (Join (Fields name) "-").data := by
        simp [getKeySetLine]
      rw [e, List.getLast?_append_of_ne_nil _ hdn] at hc
      exact hds c (List.mem_of_getLast?_eq_some hc)
  have hlen : (getKeySetLine name cid).length > 0 := by
    have e : (getKeySetLine name cid).data =
        (cid ++ delimiter).data ++ (Join (Fields name) "-").data := by
      simp [getKeySetLine]
    show (getKeySetLine name cid).data.length > 0
    rw [e]
    exact List.length_pos.2 (by simp [hdn])
  have hf2 : Fields (getKeySetLine name cid) = [cid, Join (Fields name) "-"] := hf
  simp only [fillMapWithCID, hks, if_true, hscan, keySetLoop, htrim, hlen, hf2, mapSet]


/-- C8 (the code departs from the claim): for the non-empty file name `" "` the line
of `getKeySetLine` is the ContentID and the delimiter with no name after it; it
splits into one field, and `fillMapWithCID` rejects the KeySet file holding it as
malformed. `getKeySetLineFromPath` gives the same line for a file of that name. -/
theorem getKeySetLine_blank_name :
    getKeySetLine " " "Qm1" = "Qm1  " ∧
    Fields (getKeySetLine " " "Qm1") = ["Qm1"] ∧
    fillMapWithCID demoAdd demoLink [] "data/set.ks" (getKeySetLine " " "Qm1" ++ "\n") =
      .error (.malformedKeySet "data/set.ks") ∧
    getKeySetLineFromPath (fun _ => .ok "Qm1") (filepathJoin demoLink " ") = .ok "Qm1  " := by
  decide

/-! ## The base name of a path joined under the link -/

theorem getLast?_tail_of_ne_nil (c : Char) (q : List Char) (hq : q ≠ [])
    (h : (c :: q).getLast? = some '/') : q.getLast? = some '/' := by
  obtain ⟨d, r, rfl⟩ := List.exists_cons_of_ne_nil hq
  simpa [List.getLast?_cons_cons] using h

theorem valid_tail (c : Char) (q : List Char) (h : (c :: q).getLast? = some '/') :
    q = [] ∨ q.getLast? = some '/' := by
  by_cases hq : q = []
  · exact Or.inl hq
  · exact Or.inr (getLast?_tail_of_ne_nil c q hq h)

theorem dropWhile_append_of_last (q name : List Char) (h : q.getLast? = some '/') :
    List.dropWhile (fun x => !(x == '/')) (q ++ name) =
        List.dropWhile (fun x => !(x == '/')) q ++ name ∧
      (List.dropWhile (fun x => !(x == '/')) q).getLast? = some '/' ∧
      (List.dropWhile (fun x => !(x == '/')) q).length ≤ q.length := by
  induction q with
  | nil => simp at h
  | cons c q ih =>
    by_cases hc : c = '/'
    · subst hc
      simp [List.dropWhile, h]
    · have hq : q ≠ [] := by
        rintro rfl
        simp at h
        exact hc h
      have := ih (getLast?_tail_of_ne_nil c q hq h)
      have hb : (!(c == '/')) = true := by simp [hc]
      simp only [List.cons_append, List.dropWhile_cons, hb, if_true, List.length_cons]
      exact ⟨this.1, this.2.1, Nat.le_succ_of_le this.2.2⟩

theorem cleanBack_ge (out : List Char) (dd w : Nat) (h : dd ≤ w) :
    dd ≤ cleanBack '/' out dd w := by
  induction w with
  | zero => simpa [cleanBack] using h
  | succ w ih =>
    unfold cleanBack
    split
    · rename_i hlt
      exact ih (Nat.lt_succ_iff.1 hlt.1)
    · exact h

theorem head?_take_of_pos (out : List Char) (n : Nat) (hn : 1 ≤ n) :
    (out.take n).head? = out.head? := by
  cases out with
  | nil => simp
  | cons c t =>
    obtain ⟨m, rfl⟩ : ∃ m, n = m + 1 := ⟨n - 1, by omega⟩
    simp

theorem head?_append_of_ne (a b : List Char) (c : Char) (h : a.head? = some c) :
    (a ++ b).head? = some c := by
  cases a with
  | nil => simp at h
  | cons x t => simpa using h


theorem cleanLoop_nil (rooted : Bool) (f : Nat) (out : List Char) (dd : Nat) :
    cleanLoop '/' '.' rooted f [] out dd = out := by
  cases f <;> rfl

theorem cleanLoop_last (rooted : Bool) (name : List Char) (hne : name ≠ [])
    (hns : ∀ c ∈ name, c ≠ '/') (hd1 : name ≠ ['.']) (hd2 : name ≠ ['.', '.']) :
    ∀ (fuel : Nat) (q out : List Char) (dd : Nat),
      (q = [] ∨ q.getLast? = some '/') → q.length + 1 ≤ fuel →
      (rooted = true → out.head? = some '/' ∧ 1 ≤ dd) →
      ∃ X : List Char, (X = [] ∨ X.getLast? = some '/') ∧
        cleanLoop '/' '.' rooted fuel (q ++ name) out dd = X ++ name := by
  intro fuel
  induction fuel with
  | zero =>
    intro q out dd _ hf
    omega
  | succ f ih =>
    intro q out dd hq hf hinv
    cases q with
    | nil =>
      obtain ⟨c, t, rfl⟩ := List.exists_cons_of_ne_nil hne
      have hc : c ≠ '/' := hns c (List.mem_cons_self _ _)
      have ht : ∀ x ∈ t, x ≠ '/' := fun x hx => hns x (List.mem_cons_of_mem _ hx)
      have h2 : ¬ (c = '.' ∧ (t = [] ∨ t.head? = some '/')) := by
        rintro ⟨rfl, h | h⟩
        · exact hd1 (by rw [h])
        · cases t with
          | nil => simp at h
          | cons d r =>
            simp only [List.head?_cons, Option.some.injEq] at h
            exact ht d (List.mem_cons_self _ _) h
      have h3 : ¬ (c = '.' ∧ t.head? = some '.' ∧ (t.tail = [] ∨ t.tail.head? = some '/')) := by
        rintro ⟨rfl, h, h'⟩
        cases t with
        | nil => simp at h
        | cons d r =>
          simp only [List.head?_cons, Option.some.injEq] at h
          subst h
          rcases h' with h' | h'
          · simp only [List.tail_cons] at h'
            subst h'
            exact hd2 rfl
          · cases r with
            | nil => simp at h'
            | cons e r' =>
              simp only [List.tail_cons, List.head?_cons, Option.some.injEq] at h'
              exact ht e (by simp) h'
      have htw : List.takeWhile (fun x => !(x == '/')) (c :: t) = c :: t :=
        List.takeWhile_eq_self_iff.2 (fun x hx => by simp [hns x hx])
      have hdw : List.dropWhile (fun x => !(x == '/')) (c :: t) = [] := by
        rw [List.dropWhile_eq_nil_iff]
        intro x hx
        simp [hns x hx]
      rw [List.nil_append, cleanLoop]
      simp only [hc, if_false, h2, h3, htw, hdw, cleanLoop_nil]
      refine ⟨_, ?_, rfl⟩
      cases rooted with
      | true =>
        obtain ⟨hh, _⟩ := hinv rfl
        by_cases hl : out.length = 1
        · right
          obtain ⟨x, rfl⟩ := List.length_eq_one.1 hl
          simpa using hh
        · right
          simp [hl]
      | false =>
        by_cases hl : out.length = 0
        · left
          simp [hl, List.length_eq_zero.1 hl]
        · right
          simp [hl]
    | cons c q' =>
      have hlast : (c :: q').getLast? = some '/' := by
        rcases hq with h | h
        · simp at h
        · exact h
      have hq' := valid_tail c q' hlast
      have hf' : q'.length + 1 ≤ f := by
        simp only [List.length_cons] at hf
        omega
      rw [List.cons_append, cleanLoop]
      simp only []
      by_cases h1 : c = '/'
      · rw [if_pos h1]
        exact ih q' out dd hq' hf' hinv
      · by_cases h2 : c = '.' ∧ (q' ++ name = [] ∨ (q' ++ name).head? = some '/')
        · rw [if_neg h1, if_pos h2]
          exact ih q' out dd hq' hf' hinv
        · by_cases h3 : c = '.' ∧ (q' ++ name).head? = some '.' ∧
              ((q' ++ name).tail = [] ∨ (q' ++ name).tail.head? = some '/')
          · rw [if_neg h1, if_neg h2, if_pos h3]
            have hq'ne : q' ≠ [] := by
              rintro rfl
              rw [h3.1] at hlast
              simp at hlast
            obtain ⟨d, q'', rfl⟩ := List.exists_cons_of_ne_nil hq'ne
            have hq'' : q'' = [] ∨ q''.getLast? = some '/' := by
              rcases hq' with h | h
              · simp at h
              · exact valid_tail d q'' h
            have hf'' : q''.length + 1 ≤ f := by
              simp only [List.length_cons] at hf'
              omega
            simp only [List.cons_append, List.tail_cons]
            by_cases h4 : dd < out.length
            · rw [if_pos h4]
              apply ih q'' _ dd hq'' hf''
              intro hr
              obtain ⟨hh, hd⟩ := hinv hr
              refine ⟨?_, hd⟩
              rw [head?_take_of_pos _ _ (le_trans hd (cleanBack_ge out dd _ (by omega)))]
              exact hh
            · rw [if_neg h4]
              cases rooted with
              | true =>
                simp only [Bool.not_true, Bool.false_eq_true, if_false]
                exact ih q'' out dd hq'' hf'' hinv
              | false =>
                simp only [Bool.not_false, if_true]
                exact ih q'' _ _ hq'' hf'' (fun h => absurd h (by decide))
          · rw [if_neg h1, if_neg h2, if_neg h3]
            have hc : (!(c == '/')) = true := by simp [h1]
            have hdrop := dropWhile_append_of_last (c :: q') name hlast
            rw [List.cons_append] at hdrop
            rw [hdrop.1]
            apply ih _ _ dd (Or.inr hdrop.2.1)
            · have h5 : (List.dropWhile (fun x => !(x == '/')) q').length ≤ q'.length :=
                (List.dropWhile_suffix _).length_le
              simp only [List.dropWhile_cons, hc, if_true]
              omega
            · intro hr
              obtain ⟨hh, hd⟩ := hinv hr
              refine ⟨?_, hd⟩
              apply head?_append_of_ne
              subst hr
              by_cases hl : out.length = 1
              · simpa [hl] using hh
              · have hl2 : (out.length != 1) = true := by simpa using hl
                simp only [Bool.true_and, hl2, Bool.true_or, if_true]
                exact head?_append_of_ne _ _ _ hh


theorem Base_of_endsInName (path : String) (name : List Char) (h : EndsInName path name) :
    Base path = String.mk name := by
  obtain ⟨q, hp, hq, hne, hns, _, _⟩ := h
  have hpne : path.data ≠ [] := by
    rw [hp]
    simp [hne]
  have hrev : path.data.reverse = name.reverse ++ q.reverse := by
    rw [hp, List.reverse_append]
  obtain ⟨x, r, hr⟩ := List.exists_cons_of_ne_nil (show name.reverse ≠ [] by simpa using hne)
  have hx : x ≠ '/' := hns x (by
    have : x ∈ name.reverse := by rw [hr]; exact List.mem_cons_self _ _
    simpa using this)
  have hd : List.dropWhile (fun c => c == '/') (name.reverse ++ q.reverse) =
      name.reverse ++ q.reverse := by
    rw [hr]
    have hb : (x == '/') = false := beq_false_of_ne hx
    simp only [List.cons_append, List.dropWhile_cons, hb, Bool.false_eq_true, if_false]
  have ht : List.takeWhile (fun c => !(c == '/')) (name.reverse ++ q.reverse) =
      name.reverse := by
    have hall : ∀ y ∈ name.reverse, (!(y == '/')) = true := by
      intro y hy
      have : y ≠ '/' := hns y (by simpa using hy)
      simp [this]
    rcases hq with rfl | hq
    · simp only [List.reverse_nil, List.append_nil]
      exact List.takeWhile_eq_self_iff.2 hall
    · obtain ⟨z, w, hw⟩ : ∃ z w, q.reverse = z :: w := by
        cases hqr : q.reverse with
        | nil =>
          have : q = [] := by simpa using hqr
          rw [this] at hq
          simp at hq
        | cons z w => exact ⟨z, w, rfl⟩
      have hz : z = '/' := by
        have h1 : q.reverse.head? = q.getLast? := List.head?_reverse q
        rw [hw, hq] at h1
        simpa using h1
      rw [hw, hz, List.takeWhile_append_of_pos hall]
      simp [List.takeWhile]
  simp only [Base, hpne, if_false, hrev, hd, ht, List.reverse_reverse, hne]

theorem Clean_endsInName (path : String) (name : List Char) (h : EndsInName path name) :
    EndsInName (Clean path) name := by
  obtain ⟨q, hp, hq, hne, hns, hd1, hd2⟩ := h
  obtain ⟨n0, nt, hn⟩ := List.exists_cons_of_ne_nil hne
  have hn0 : n0 ≠ '/' := hns n0 (by rw [hn]; exact List.mem_cons_self _ _)
  unfold Clean
  cases hdata : path.data with
  | nil =>
    rw [hdata] at hp
    have : name = [] := (List.append_eq_nil.1 hp.symm).2
    exact absurd this hne
  | cons c t =>
    simp only [cleanPath]
    by_cases hc : c = '/'
    · have hqne : q ≠ [] := by
        rintro rfl
        rw [hdata, List.nil_append, hn] at hp
        exact hn0 ((List.cons.inj hp).1.symm.trans hc)
      obtain ⟨c', q0, rfl⟩ := List.exists_cons_of_ne_nil hqne
      rw [hdata, List.cons_append] at hp
      have ht : t = q0 ++ name := (List.cons.inj hp).2
      have hq0 : q0 = [] ∨ q0.getLast? = some '/' := by
        rcases hq with h | h
        · simp at h
        · exact valid_tail c' q0 h
      obtain ⟨X, hX, hrun⟩ := cleanLoop_last true name hne hns hd1 hd2 (t.length + 1) q0 ['/'] 1
        hq0 (by rw [ht]; simp) (fun _ => ⟨rfl, le_refl 1⟩)
      have hne2 : X ++ name ≠ [] := by simp [hne]
      rw [ht] at hrun ⊢
      rw [if_pos hc, hrun, if_neg hne2]
      exact ⟨X, rfl, hX, hne, hns, hd1, hd2⟩
    · have hlen : q.length + 1 ≤ t.length + 2 := by
        have := congrArg List.length hp
        rw [hdata] at this
        simp only [List.length_cons, List.length_append] at this
        omega
      obtain ⟨X, hX, hrun⟩ := cleanLoop_last false name hne hns hd1 hd2 (t.length + 2) q [] 0
        hq hlen (fun h => absurd h (by decide))
      have hne2 : X ++ name ≠ [] := by simp [hne]
      rw [hdata] at hp
      rw [← hp] at hrun
      rw [if_neg hc, hrun, if_neg hne2]
      exact ⟨X, rfl, hX, hne, hns, hd1, hd2⟩

theorem filepathJoin_endsInName (link path : String) (name : List Char)
    (hlink : link.data ≠ []) (h : EndsInName path name) :
    EndsInName (filepathJoin link path) name := by
  obtain ⟨q, hp, hq, hne, hns, hd1, hd2⟩ := h
  unfold filepathJoin
  rw [if_pos hlink]
  apply Clean_endsInName
  refine ⟨link.data ++ '/' :: q, ?_, Or.inr ?_, hne, hns, hd1, hd2⟩
  · simp [hp]
  · rcases hq with rfl | hq
    · simp
    · have hqne : q ≠ [] := by
        rintro rfl
        simp at hq
      rw [List.getLast?_append_of_ne_nil _ (by simp)]
      obtain ⟨d, r, rfl⟩ := List.exists_cons_of_ne_nil hqne
      rw [List.getLast?_cons_cons]
      exact hq

theorem DisplayName_filepathJoin (link path : String) (name : List Char)
    (hlink : link.data ≠ []) (h : EndsInName path name) :
    DisplayName (filepathJoin link path) = DisplayName path := by
  unfold DisplayName
  rw [Base_of_endsInName _ _ (filepathJoin_endsInName link path name hlink h),
    Base_of_endsInName _ _ h]

/-! ## `createNew` -/

theorem strLt_iff (a b : List Char) : strLt a b = true ↔ a < b := by
  induction a generalizing b with
  | nil =>
    cases b with
    | nil => simp [strLt]
    | cons y ys =>
      simp only [strLt, true_iff]
      exact List.Lex.nil
  | cons x xs ih =>
    cases b with
    | nil => simp [strLt]
    | cons y ys =>
      simp only [strLt, Bool.or_eq_true, decide_eq_true_eq, Bool.and_eq_true, beq_iff_eq, ih]
      constructor
      · rintro (h | ⟨rfl, h⟩)
        · exact List.Lex.rel h
        · exact List.Lex.cons h
      · intro h
        cases h with
        | cons h => exact Or.inr ⟨rfl, h⟩
        | rel h => exact Or.inl h

theorem strLt_data (a b : String) : strLt a.data b.data = true ↔ a < b := by
  rw [strLt_iff, String.lt_iff_toList_lt]
  rfl

theorem mem_sortedAdd (s x : String) (l : List String) :
    x ∈ sortedAdd s l ↔ x = s ∨ x ∈ l := by
  induction l with
  | nil => simp [sortedAdd]
  | cons a l ih =>
    by_cases h1 : s = a
    · simp only [sortedAdd, h1, if_true, List.mem_cons]
      tauto
    · by_cases h2 : strLt s.data a.data = true
      · simp only [sortedAdd, h1, if_false, h2, if_true, List.mem_cons]
      · simp only [Bool.not_eq_true] at h2
        simp only [sortedAdd, h1, if_false, h2, Bool.false_eq_true, List.mem_cons, ih]
        tauto

theorem sortedAdd_sorted (s : String) (l : List String) (h : l.Pairwise (· < ·)) :
    (sortedAdd s l).Pairwise (· < ·) := by
  induction l with
  | nil => simp [sortedAdd]
  | cons a l ih =>
    rw [List.pairwise_cons] at h
    by_cases h1 : s = a
    · simp only [sortedAdd, h1, if_true]
      exact List.pairwise_cons.2 h
    · by_cases h2 : strLt s.data a.data = true
      · have hsa : s < a := (strLt_data s a).1 h2
        simp only [sortedAdd, h1, if_false, h2, if_true]
        refine List.pairwise_cons.2 ⟨?_, List.pairwise_cons.2 h⟩
        intro y hy
        rcases List.mem_cons.1 hy with rfl | hy
        · exact hsa
        · exact lt_trans hsa (h.1 y hy)
      · have has : a < s := by
          rcases lt_trichotomy s a with h3 | h3 | h3
          · exact absurd ((strLt_data s a).2 h3) h2
          · exact absurd h3 h1
          · exact h3
        simp only [sortedAdd, h1, if_false, h2]
        refine List.pairwise_cons.2 ⟨?_, ih h.2⟩
        intro y hy
        rcases (mem_sortedAdd s y l).1 hy with rfl | hy
        · exact has
        · exact h.1 y hy

theorem foldl_sortedAdd (lines set : List String) (h : set.Pairwise (· < ·)) :
    (lines.foldl (fun set line => sortedAdd line set) set).Pairwise (· < ·) ∧
      ∀ x, x ∈ lines.foldl (fun set line => sortedAdd line set) set ↔ x ∈ set ∨ x ∈ lines := by
  induction lines generalizing set with
  | nil => exact ⟨h, fun x => by simp⟩
  | cons l ls ih =>
    obtain ⟨h1, h2⟩ := ih (sortedAdd l set) (sortedAdd_sorted l set h)
    refine ⟨h1, ?_⟩
    intro x
    simp only [List.foldl_cons, h2, mem_sortedAdd, List.mem_cons]
    tauto

theorem forEachPath_ok (ipfsAdd : String → Except String String) (cidOf : String → String)
    (link : String) (paths : List String) (output : String)
    (hadd : ∀ p ∈ paths, ipfsAdd (filepathJoin link p) = .ok (cidOf p)) :
    forEachPath ipfsAdd link paths output =
      .ok (output ++ linesText (paths.map (fun p =>
        cidOf p ++ delimiter ++ DisplayName (filepathJoin link p)))) := by
  induction paths generalizing output with
  | nil => simp [forEachPath, linesText]
  | cons p ps ih =>
    have hp := hadd p (List.mem_cons_self _ _)
    simp only [forEachPath, getKeySetLineFromPath, hp, getKeySetLine, Join_Fields_idem,
      ih _ (fun q hq => hadd q (List.mem_cons_of_mem _ hq)), List.map_cons, linesText,
      DisplayName, String.append_assoc]

/-- C7: for every staged list whose paths the addressing service resolves (to
`cidOf`), and whatever the target held before, `createNew` leaves in the target
exactly one line per distinct staged path, in strictly increasing lexicographic
order of the paths, each line being `ContentID<two spaces>DisplayName` with the
ContentID of that path and the DisplayName of the path as joined under the link
(its base name, white space runs replaced by hyphens). Paths with the same
ContentID keep their own lines. For a staged path that ends in a file name, the
DisplayName is that of the staged path itself. -/
theorem createNew_writes (ipfsAdd : String → Except String String) (cidOf : String → String)
    (link : String) (prior : Option String) (addedFiles : String)
    (hadd : ∀ p ∈ fileLines addedFiles, ipfsAdd (filepathJoin link p) = .ok (cidOf p)) :
    ∃ paths : List String, paths.Pairwise (· < ·) ∧
      (∀ p, p ∈ paths ↔ p ∈ fileLines addedFiles) ∧
      createNew ipfsAdd link prior addedFiles =
        .ok (linesText (paths.map (fun p =>
          cidOf p ++ delimiter ++ DisplayName (filepathJoin link p)))) ∧
      (link.data ≠ [] → ∀ p name, EndsInName p name →
        DisplayName (filepathJoin link p) = DisplayName p) := by
  obtain ⟨h1, h2⟩ := foldl_sortedAdd (fileLines addedFiles) [] List.Pairwise.nil
  refine ⟨FillSet [] addedFiles, h1, ?_, ?_,
    fun hlink p name h => DisplayName_filepathJoin link p name hlink h⟩
  · intro p
    have := h2 p
    simpa [FillSet] using this
  · have hadd2 : ∀ p ∈ FillSet [] addedFiles,
        ipfsAdd (filepathJoin link p) = .ok (cidOf p) := by
      intro p hp
      apply hadd
      have := (h2 p).1 hp
      simpa using this
    have ht : (prior.map (fun _ => "")).getD "" = "" := by
      cases prior <;> rfl
    simp only [createNew, forEachPath_ok ipfsAdd cidOf link _ "" hadd2, ht, String.empty_append]

/-- Witness of C7: the spec's scenario over a prior content, and two staged paths
with the same ContentID, which keep a line each. -/
theorem createNew_writes_witness :
    (∃ paths : List String, paths.Pairwise (· < ·) ∧
      (∀ p, p ∈ paths ↔ p ∈ fileLines "fileB.txt\nfileA.txt\nfileB.txt\n") ∧
      createNew demoAdd demoLink (some "old  line\n") "fileB.txt\nfileA.txt\nfileB.txt\n" =
        .ok (linesText (paths.map (fun p =>
          demoCid p ++ delimiter ++ DisplayName (filepathJoin demoLink p)))) ∧
      (demoLink.data ≠ [] → ∀ p name, EndsInName p name →
        DisplayName (filepathJoin demoLink p) = DisplayName p)) ∧
    createNew demoAdd demoLink (some "old  line\n") "fileB.txt\nfileA.txt\nfileB.txt\n" =
      .ok "CID1  fileA.txt\nCID2  fileB.txt\n" ∧
    createNew demoAdd demoLink none "fileA.txt\ncopy of A.txt\n" =
      .ok "CID1  copy-of-A.txt\nCID1  fileA.txt\n" :=
  ⟨createNew_writes demoAdd demoCid demoLink (some "old  line\n")
    "fileB.txt\nfileA.txt\nfileB.txt\n" (by decide), by decide, by decide⟩

end Ait
